import Mathlib

/-!
# imgdedup: fingerprint extraction, distance and pair enumeration

A shallow embedding of `image.go` (package `imgdedup`), of the drivers `main.go` and
`imgdedup.go` (package `main`) and of `cmd/imgdedup/output.go`.

Conventions of the embedding.

* Go `int` / `int64` values are `Int`, `uint64` / `uint32` values are `Nat`; `int` is 64 bits
  wide (as on amd64 and arm64), and every place where the source can wrap is written with an
  explicit reduction modulo `2 ^ 64`.
* `float32` / `float64` values are modelled exactly: a finite value is a sign, a natural
  mantissa and an integer binary exponent, and every arithmetic operation rounds the exact
  rational result to 24 resp. 53 significant bits, to nearest, ties to even (IEEE 754).  The
  exponent range is not bounded: all magnitudes that the program can produce from 64-bit
  integers are far inside the range of either format.
* A conversion from floating point to an integer type whose operand does not fit has an
  implementation-dependent result in Go; that result is a parameter (`Arch`).
* A run-time panic (index out of range, integer division by zero, a `make` whose length is
  negative or beyond the allocation limit `maxAlloc`) is the outcome `Outcome.panicked`.
  Running out of memory below that limit is not modelled.
-/

namespace Imgdedup

/-! ## Machine integers -/

/-- Conversion of an integer to `uint64`: reduction modulo `2 ^ 64`. -/
def wrapU64 (n : Int) : Nat := (n % 2 ^ 64).toNat

/-- Result of an `int` (64-bit, two's complement) operation whose exact value is `n`. -/
def wrapI64 (n : Int) : Int := (n + 2 ^ 63) % 2 ^ 64 - 2 ^ 63

/-- Addition of two `uint64` values. -/
def addU64 (a b : Nat) : Nat := (a + b) % 2 ^ 64

/-! ## Binary floating point -/

/-- Auxiliary recursion of `ilog2`, bounded by `fuel`. -/
def ilog2Aux : Nat → Nat → Nat
  | 0, _ => 0
  | fuel + 1, n => if n < 2 then 0 else ilog2Aux fuel (n / 2) + 1

/-- Position of the leading bit of `n` (`⌊log₂ n⌋` for `n ≥ 1`). -/
def ilog2 (n : Nat) : Nat := ilog2Aux n n

/-- The binary exponent of the positive rational `a / b`: the `e` with
`2 ^ e ≤ a / b < 2 ^ (e + 1)`. -/
def binExp (a b : Nat) : Int :=
  let e0 : Int := (ilog2 a : Int) - (ilog2 b : Int)
  if b * 2 ^ e0.toNat ≤ a * 2 ^ (-e0).toNat then e0 else e0 - 1

/-- Rounding of the non-negative rational `a / b` (`b > 0`) to `p` significant bits, to nearest,
ties to even.  The result `(m, u)` stands for `m * 2 ^ u`.  Here `u` is the exponent of the unit
in the last place and `num / den` is `a / b` scaled by `2 ^ (-u)`, which is rounded to an
integer. -/
def roundFrac (p : Nat) (a b : Nat) : Nat × Int :=
  if a = 0 then (0, 0) else
  let u : Int := binExp a b - ((p : Int) - 1)
  let num : Nat := a * 2 ^ (-u).toNat
  let den : Nat := b * 2 ^ u.toNat
  let q := num / den
  let r := num % den
  if 2 * r < den then (q, u)
  else if den < 2 * r then (q + 1, u)
  else if q % 2 = 0 then (q, u) else (q + 1, u)

/-- A floating-point value: finite `(-1) ^ neg * man * 2 ^ exp`, an infinity, or NaN. -/
inductive Fl where
  | fin (neg : Bool) (man : Nat) (exp : Int)
  | inf (neg : Bool)
  | nan
  deriving DecidableEq

namespace Fl

/-- Conversion of an integer to a float of precision `p`. -/
def ofInt (p : Nat) (n : Int) : Fl :=
  let r := roundFrac p n.natAbs 1
  fin (decide (n < 0)) r.1 r.2

/-- Floating-point division at precision `p`. -/
def div (p : Nat) : Fl → Fl → Fl
  | fin s1 m1 e1, fin s2 m2 e2 =>
    if m2 = 0 then (if m1 = 0 then nan else inf (xor s1 s2))
    else
      let d := e1 - e2
      let r := roundFrac p (m1 * 2 ^ d.toNat) (m2 * 2 ^ (-d).toNat)
      fin (xor s1 s2) r.1 r.2
  | fin s1 _ _, inf s2 => fin (xor s1 s2) 0 0
  | inf s1, fin s2 _ _ => inf (xor s1 s2)
  | _, _ => nan

/-- Floating-point multiplication at precision `p`. -/
def mul (p : Nat) : Fl → Fl → Fl
  | fin s1 m1 e1, fin s2 m2 e2 =>
    let d := e1 + e2
    let r := roundFrac p (m1 * m2 * 2 ^ d.toNat) (2 ^ (-d).toNat)
    fin (xor s1 s2) r.1 r.2
  | fin s1 m1 _, inf s2 => if m1 = 0 then nan else inf (xor s1 s2)
  | inf s1, fin s2 m2 _ => if m2 = 0 then nan else inf (xor s1 s2)
  | inf s1, inf s2 => inf (xor s1 s2)
  | _, _ => nan

/-- Floating-point subtraction at precision `p`.  A difference that is zero is returned as
`+0`; no conversion to an integer observes the sign of a zero. -/
def sub (p : Nat) : Fl → Fl → Fl
  | fin s1 m1 e1, fin s2 m2 e2 =>
    let e := min e1 e2
    let z1 : Int := (if s1 then -1 else 1) * ((m1 * 2 ^ (e1 - e).toNat : Nat) : Int)
    let z2 : Int := (if s2 then -1 else 1) * ((m2 * 2 ^ (e2 - e).toNat : Nat) : Int)
    let z := z1 - z2
    let r := roundFrac p (z.natAbs * 2 ^ e.toNat) (2 ^ (-e).toNat)
    fin (decide (z < 0)) r.1 r.2
  | fin _ _ _, inf s2 => inf (!s2)
  | inf s1, fin _ _ _ => inf s1
  | inf s1, inf s2 => if s1 = s2 then nan else inf s1
  | _, _ => nan

/-- Go `math.Abs`. -/
def abs : Fl → Fl
  | fin _ m e => fin false m e
  | inf _ => inf false
  | nan => nan

/-- Integer part `⌊man * 2 ^ exp⌋` of a magnitude. -/
def magFloor (m : Nat) (e : Int) : Nat :=
  if 0 ≤ e then m * 2 ^ e.toNat else m / 2 ^ (-e).toNat

/-- Integer `⌈man * 2 ^ exp⌉` of a magnitude. -/
def magCeil (m : Nat) (e : Int) : Nat :=
  if 0 ≤ e then m * 2 ^ e.toNat else (m + (2 ^ (-e).toNat - 1)) / 2 ^ (-e).toNat

/-- Go `math.Floor`. -/
def floor : Fl → Fl
  | fin false m e => fin false (magFloor m e) 0
  | fin true m e => fin true (magCeil m e) 0
  | f => f

/-- The value of a finite float truncated toward zero; `none` for an infinity or NaN. -/
def trunc : Fl → Option Int
  | fin false m e => some (magFloor m e)
  | fin true m e => some (-(magFloor m e : Int))
  | _ => none

end Fl

/-- The implementation-dependent results of float-to-integer conversions whose operand cannot
be represented by the result type. -/
structure Arch where
  cvtI64 : Fl → Int
  cvtU64 : Fl → Nat

/-- An architecture that answers every unrepresentable conversion with the bit pattern
`0x8000000000000000`. -/
def indefiniteArch : Arch := ⟨fun _ => -(2 ^ 63), fun _ => 2 ^ 63⟩

/-- Conversion `int64(f)` of a float. -/
def toI64 (arch : Arch) (f : Fl) : Int :=
  match f.trunc with
  | some t => if -(2 ^ 63) ≤ t ∧ t < 2 ^ 63 then t else wrapI64 (arch.cvtI64 f)
  | none => wrapI64 (arch.cvtI64 f)

/-- Conversion `uint64(f)` of a float. -/
def toU64 (arch : Arch) (f : Fl) : Nat :=
  match f.trunc with
  | some t => if 0 ≤ t ∧ t < 2 ^ 64 then t.toNat else arch.cvtU64 f % 2 ^ 64
  | none => arch.cvtU64 f % 2 ^ 64

/-! ## Outcomes, loops and grids -/

/-- How a call ends: it returns a value, or the run-time system panics. -/
inductive Outcome (α : Type) where
  | ret (a : α)
  | panicked
  deriving DecidableEq

/-- A `for` loop over the index values `is`, threading the state `s`; `none` is a panic raised
by the body. -/
def forEach {ι σ : Type} (body : ι → σ → Option σ) : List ι → σ → Option σ
  | [], s => some s
  | i :: is, s =>
    match body i s with
    | none => none
    | some s1 => forEach body is s1

/-- The values taken by `v` in `for v := lo; v < hi; v++`. -/
def intRange (lo hi : Int) : List Int :=
  (List.range (hi - lo).toNat).map (fun (k : Nat) => lo + (k : Int))

/-- One grid cell, `[3]uint64`. -/
structure Cell where
  c0 : Nat
  c1 : Nat
  c2 : Nat
  deriving DecidableEq

/-- Type `pictable` of image.go: `[][][3]uint64`. -/
abbrev pictable := List (List Cell)

/-- Read `p[i][j]`; `none` is the index-out-of-range panic. -/
def cellAt (p : pictable) (i j : Int) : Option Cell :=
  if i < 0 ∨ j < 0 then none else
  match p[i.toNat]? with
  | none => none
  | some row => row[j.toNat]?

/-- Update `p[i][j]` in place to `f p[i][j]`; `none` is the index-out-of-range panic. -/
def modifyCell (p : pictable) (i j : Int) (f : Cell → Cell) : Option pictable :=
  if i < 0 ∨ j < 0 then none else
  match p[i.toNat]? with
  | none => none
  | some row =>
    match row[j.toNat]? with
    | none => none
    | some c => some (p.set i.toNat (row.set j.toNat (f c)))

/-! ## image.go -/

/-- The allocation limit `maxAlloc` of the Go runtime on the 64-bit platforms (`1 << 48`
bytes). -/
def maxAlloc : Nat := 2 ^ 48

/-- Whether `make([]T, len)` panics ("makeslice: len out of range") for an element type of
`elemSize` bytes: the length is negative, or the size in bytes is beyond `maxAlloc`. -/
def makePanics (elemSize : Nat) (len : Int) : Bool :=
  decide (len < 0 ∨ (maxAlloc : Int) < elemSize * len)

/-- Function `newPictable` of image.go; `none` is the panic of `make`.  The elements of the outer
slice are slice headers and those of the inner slices are `[3]uint64`, 24 bytes each; the inner
`make` runs once for each of the `dx` rows. -/
def newPictable (dx dy : Int) : Option pictable :=
  if makePanics 24 dx then none
  else if 0 < dx ∧ makePanics 24 dy then none
  else some (List.replicate dx.toNat (List.replicate dy.toNat ⟨0, 0, 0⟩))

/-- Type `image.Point`. -/
structure Point where
  X : Int
  Y : Int

/-- Type `image.Rectangle`. -/
structure Rectangle where
  Min : Point
  Max : Point

/-- The four `uint32` results of `color.Color.RGBA`. -/
structure Color where
  r : Nat
  g : Nat
  b : Nat
  a : Nat

/-- Interface `image.Image`: the bounds and the colour of each pixel. -/
structure Image where
  Bounds : Rectangle
  At : Int → Int → Color

/-- An image as `pictableFromImage` receives it.  The function is not exported and its one
caller, `NewImageInfo` (image.go lines 51-56), passes what `image.Decode` returns: an image whose
pixels lie in one slice, with at least one byte for each pixel, and a slice holds at most
`maxAlloc` bytes. -/
structure DecodedImage extends Image where
  held : (toImage.Bounds.Max.X - toImage.Bounds.Min.X).toNat
      * (toImage.Bounds.Max.Y - toImage.Bounds.Min.Y).toNat ≤ maxAlloc

/-- The errors built by image.go. -/
inductive GoError where
  | invalidDimensions (x y : Int)
  | dissimilarSubdivisions
  deriving DecidableEq

/-- Variable `ErrorDissimilarSubdivisions` of image.go. -/
def ErrorDissimilarSubdivisions : GoError := .dissimilarSubdivisions

/-- Struct `ImageInfo` of image.go. -/
structure ImageInfo where
  Data : pictable
  Format : String
  Bounds : Rectangle
  Filesize : Nat
  Subdivisions : Int

/-- The expression `int64(math.Floor((float64(x) / float64(max)) * float64(size)))`. -/
def gridIndex (arch : Arch) (x max size : Int) : Int :=
  toI64 arch (Fl.floor (Fl.mul 53 (Fl.div 53 (Fl.ofInt 53 x) (Fl.ofInt 53 max)) (Fl.ofInt 53 size)))

/-- The expression `uint64((float32(r) / 65535) * 255)`. -/
def scaleSample (arch : Arch) (r : Nat) : Nat :=
  toU64 arch (Fl.mul 24 (Fl.div 24 (Fl.ofInt 24 r) (Fl.ofInt 24 65535)) (Fl.ofInt 24 255))

/-- Body of the pixel loop of `pictableFromImage` (image.go lines 85-91). -/
def addPixel (arch : Arch) (m : Image) (size : Int) (x y : Int) (avgdata : pictable) :
    Option pictable :=
  let rX := gridIndex arch x m.Bounds.Max.X size
  let rY := gridIndex arch y m.Bounds.Max.Y size
  let c := m.At x y
  modifyCell avgdata rX rY (fun v =>
    ⟨addU64 v.c0 (scaleSample arch c.r), addU64 v.c1 (scaleSample arch c.g),
      addU64 v.c2 (scaleSample arch c.b)⟩)

/-- The pixel loop of `pictableFromImage` (image.go lines 83-93). -/
def accumulate (arch : Arch) (m : Image) (size : Int) (avgdata : pictable) : Option pictable :=
  forEach (fun y acc =>
      forEach (fun x acc => addPixel arch m size x y acc)
        (intRange m.Bounds.Min.X m.Bounds.Max.X) acc)
    (intRange m.Bounds.Min.Y m.Bounds.Max.Y) avgdata

/-- The value `uint64((bounds.Max.X / size) * (bounds.Max.Y / size))` for `size ≠ 0`. -/
def divisorOf (m : Image) (size : Int) : Nat :=
  wrapU64 (wrapI64 (Int.tdiv m.Bounds.Max.X size * Int.tdiv m.Bounds.Max.Y size))

/-- The averaging loop of `pictableFromImage` (image.go lines 100-106). -/
def divideAll (size : Int) (divisor : Nat) (avgdata : pictable) : Option pictable :=
  forEach (fun rX acc =>
      forEach (fun rY acc =>
          modifyCell acc rX rY (fun v => ⟨v.c0 / divisor, v.c1 / divisor, v.c2 / divisor⟩))
        (intRange 0 size) acc)
    (intRange 0 size) avgdata

/-- Function `pictableFromImage` of image.go.  The returned pair is Go's `(pictable, error)`,
with `[]` for the nil slice and `none` for the nil error. -/
def pictableFromImage (arch : Arch) (m : Image) (size : Int) :
    Outcome (pictable × Option GoError) :=
  match newPictable size size with
  | none => .panicked
  | some avgdata =>
    match accumulate arch m size avgdata with
    | none => .panicked
    | some acc =>
      if size = 0 then .panicked
      else
        let divisor := divisorOf m size
        if divisor = 0 then
          .ret ([], some (.invalidDimensions m.Bounds.Max.X m.Bounds.Max.Y))
        else
          match divideAll size divisor acc with
          | none => .panicked
          | some res => .ret (res, none)

/-- Function `absdiff` of image.go: `uint64(math.Abs(float64(a) - float64(b)))`. -/
def absdiff (arch : Arch) (a b : Nat) : Nat :=
  toU64 arch (Fl.abs (Fl.sub 53 (Fl.ofInt 53 a) (Fl.ofInt 53 b)))

/-- The summand of `Diff` for one pair of cells (image.go line 125). -/
def cellDiff (arch : Arch) (aa bb : Cell) : Nat :=
  absdiff arch (absdiff arch (absdiff arch aa.c0 bb.c0) (absdiff arch aa.c1 bb.c1))
    (absdiff arch aa.c2 bb.c2)

/-- The two nested loops of `Diff` (image.go lines 119-127). -/
def diffLoop (arch : Arch) (subdivisions : Int) (left right : pictable) : Option Nat :=
  forEach (fun rX xdiff =>
      forEach (fun rY xdiff =>
          match cellAt left rX rY, cellAt right rX rY with
          | some aa, some bb => some (addU64 xdiff (cellDiff arch aa bb))
          | _, _ => none)
        (intRange 0 subdivisions) xdiff)
    (intRange 0 subdivisions) 0

/-- Function `Diff` of image.go.  The returned pair is Go's `(uint64, error)`. -/
def Diff (arch : Arch) (left right : ImageInfo) : Outcome (Nat × Option GoError) :=
  if left.Subdivisions ≠ right.Subdivisions then
    .ret (0, some ErrorDissimilarSubdivisions)
  else
    match diffLoop arch left.Subdivisions left.Data right.Data with
    | none => .panicked
    | some xdiff => .ret (xdiff, none)

/-! ## The drivers: main.go, imgdedup.go (package main) and cmd/imgdedup/output.go -/

/-- Go conversion `string(n)` of an integer: the UTF-8 text of the code point `n`, and
`"\uFFFD"` when `n` is not a valid code point. -/
def runeString (n : Int) : String :=
  if 0 ≤ n ∧ n ≤ 0x10FFFF ∧ ¬ (0xD800 ≤ n ∧ n ≤ 0xDFFF) then
    String.singleton (Char.ofNat n.toNat)
  else String.singleton (Char.ofNat 0xFFFD)

/-- The string `cacheUnit` built by `fileData` (main.go line 77) and by `main` (imgdedup.go
line 151): `imgpath + "|" + string(*subdivisions) + "|" + string(fi.Size()) +
string(fi.ModTime().Unix())`. -/
def cacheUnit (imgpath : String) (subdivisions size mtime : Int) : String :=
  imgpath ++ "|" ++ runeString subdivisions ++ "|" ++ runeString size ++ runeString mtime

/-- The index pairs `(i, j)` visited, in order, by
`for i := 0; i < boundI; i++ { for j := i + 1; j < boundJ; j++ { ... } }`. -/
def pairLoop (boundI boundJ : Int) : List (Int × Int) :=
  (intRange 0 boundI).flatMap (fun i => (intRange (i + 1) boundJ).map (fun j => (i, j)))

/-- The threshold test `xdiff < uint64(*tolerance)` of the drivers. -/
def belowTolerance (xdiff : Nat) (tolerance : Int) : Bool :=
  decide (xdiff < wrapU64 tolerance)

namespace MainGo

/-- Type `pictable` of package main (imgdedup.go line 27): `[][][]uint64`. -/
abbrev pictable := List (List (List Nat))

/-- Struct `imageInfo` of package main (imgdedup.go lines 29-33). -/
structure imageInfo where
  Data : pictable
  Bounds : Rectangle
  Filesize : Int

/-- Read `p[i][j][k]`; `none` is the index-out-of-range panic. -/
def sampleAt (p : pictable) (i j : Int) (k : Nat) : Option Nat :=
  if i < 0 ∨ j < 0 then none else
  match p[i.toNat]? with
  | none => none
  | some row =>
    match row[j.toNat]? with
    | none => none
    | some cell => cell[k]?

/-- The distance loops of `main` (main.go lines 139-148). -/
def xdiffLoop (arch : Arch) (subdivisions : Int) (avgdata1 avgdata2 : pictable) : Option Nat :=
  forEach (fun rX xdiff =>
      forEach (fun rY xdiff =>
          match sampleAt avgdata1 rX rY 0, sampleAt avgdata2 rX rY 0,
            sampleAt avgdata1 rX rY 1, sampleAt avgdata2 rX rY 1,
            sampleAt avgdata1 rX rY 2, sampleAt avgdata2 rX rY 2 with
          | some a0, some b0, some a1, some b1, some a2, some b2 =>
            some (addU64 xdiff
              (absdiff arch (absdiff arch (absdiff arch a0 b0) (absdiff arch a1 b1))
                (absdiff arch a2 b2)))
          | _, _, _, _, _, _ => none)
        (intRange 0 subdivisions) xdiff)
    (intRange 0 subdivisions) 0

/-- Body of the pair loop of `main` (main.go lines 124-178) for the two file names; the result
is `some xdiff` when the pair is printed and `none` when it is skipped. -/
def pairBody (arch : Arch) (subdivisions tolerance : Int) (imgdata : String → Option imageInfo)
    (filename1 filename2 : String) : Outcome (Option Nat) :=
  match imgdata filename1, imgdata filename2 with
  | some imgdata1, some imgdata2 =>
    if filename1 = filename2 then .ret none
    else
      match xdiffLoop arch subdivisions imgdata1.Data imgdata2.Data with
      | none => .panicked
      | some xdiff => if belowTolerance xdiff tolerance then .ret (some xdiff) else .ret none
  | _, _ => .ret none

/-- The index pairs visited by the pair loop of `main` (main.go lines 119-122). -/
def pairs (fileLength : Int) : List (Int × Int) := pairLoop fileLength fileLength

end MainGo

namespace ImgdedupGo

/-- The index pairs visited by the pair loop of `main` (imgdedup.go lines 182-185). -/
def pairs (fileLength : Int) : List (Int × Int) := pairLoop (fileLength - 1) (fileLength - 1)

end ImgdedupGo

namespace OutputGo

/-- The index pairs visited by `displayDiff` (output.go lines 11-13). -/
def pairs (fileLength : Int) : List (Int × Int) := pairLoop fileLength fileLength

/-- Body of the pair loop of `displayDiff` (output.go lines 15-52); `diff` is the three-argument
`imgdedup.Diff` that output.go calls, `some xdiff` means that the pair is printed. -/
def pairBody (diff : pictable → pictable → Int → Nat) (subdivisions tolerance : Int)
    (imgdata : String → Option ImageInfo) (leftf rightf : String) : Option Nat :=
  match imgdata leftf, imgdata rightf with
  | some leftimg, some rightimg =>
    if leftf = rightf then none
    else
      let xdiff := diff leftimg.Data rightimg.Data subdivisions
      if belowTolerance xdiff tolerance then some xdiff else none
  | _, _ => none

end OutputGo

/-! ## Reference definitions (the specification's wording) -/

/-- The absolute difference `|x - y|` of two naturals. -/
def natDist (x y : Nat) : Nat := if x ≤ y then y - x else x - y

/-- The specification's summand `| |Δr − Δg| − Δb |` for one pair of cells. -/
def specCellDiff (aa bb : Cell) : Nat :=
  natDist (natDist (natDist aa.c0 bb.c0) (natDist aa.c1 bb.c1)) (natDist aa.c2 bb.c2)

/-- The cell `(i, j)` of a grid, the zero cell outside of it. -/
def cellOr0 (p : pictable) (i j : Nat) : Cell := (p.getD i []).getD j ⟨0, 0, 0⟩

/-- The specification's distance: the sum of `specCellDiff` over the cells `(i, j)`,
`0 ≤ i, j < n`. -/
def specDistance (n : Nat) (a b : pictable) : Nat :=
  ((List.range n).map (fun i =>
    ((List.range n).map (fun j => specCellDiff (cellOr0 a i j) (cellOr0 b i j))).sum)).sum

/-- A grid of exactly `n` rows of exactly `n` cells. -/
def IsGrid (n : Nat) (p : pictable) : Prop := p.length = n ∧ ∀ row ∈ p, row.length = n

instance (n : Nat) (p : pictable) : Decidable (IsGrid n p) := by
  unfold IsGrid; infer_instance

/-- The pixels visited by the pixel loop of `pictableFromImage`, in order. -/
def pixelList (m : Image) : List (Int × Int) :=
  (intRange m.Bounds.Min.Y m.Bounds.Max.Y).flatMap (fun y =>
    (intRange m.Bounds.Min.X m.Bounds.Max.X).map (fun x => (x, y)))

/-- The number of pixels that `pictableFromImage` adds into the cell `(i, j)`. -/
def pixelsIn (arch : Arch) (m : Image) (size : Int) (i j : Int) : Nat :=
  (pixelList m).countP (fun xy =>
    decide (gridIndex arch xy.1 m.Bounds.Max.X size = i ∧
      gridIndex arch xy.2 m.Bounds.Max.Y size = j))

/-- An image with the bounds `(0, 0) - (w, h)` whose pixels all have the colour `c`. -/
def uniformImage (w h : Int) (c : Color) : Image := ⟨⟨⟨0, 0⟩, ⟨w, h⟩⟩, fun _ _ => c⟩

/-- The colour white, all samples `0xffff`. -/
def white : Color := ⟨65535, 65535, 65535, 65535⟩

/-- A fingerprint with the grid `data` and the subdivision count `n`; the fields that `Diff`
does not read are empty. -/
def fingerprint (data : pictable) (n : Int) : ImageInfo :=
  ⟨data, "", ⟨⟨0, 0⟩, ⟨0, 0⟩⟩, 0, n⟩

/-- A `2 × 2` grid of small values. -/
def gridA : pictable := [[⟨1, 2, 3⟩, ⟨4, 5, 6⟩], [⟨7, 8, 9⟩, ⟨0, 0, 0⟩]]

/-- A second `2 × 2` grid of small values. -/
def gridB : pictable := [[⟨3, 2, 1⟩, ⟨9, 9, 9⟩], [⟨0, 200, 0⟩, ⟨255, 0, 0⟩]]

/-- A `2 × 2` grid that holds the largest `uint64`. -/
def gridMax : pictable := [[⟨1, 2, 3⟩, ⟨4, 5, 6⟩], [⟨7, 8, 9⟩, ⟨2 ^ 64 - 1, 0, 0⟩]]

/-- The `1 × 1` grid whose red value is `2 ^ 53 + 1`, the least natural number that `float64`
does not hold. -/
def gridOdd : pictable := [[⟨2 ^ 53 + 1, 0, 0⟩]]

/-- The `1 × 1` grid of zeros. -/
def gridZero : pictable := [[⟨0, 0, 0⟩]]

/-- A fingerprint map of package main that knows the two files `a.png` and `b.png`, both with
the one-cell fingerprint `[[[7, 7, 7]]]`. -/
def twoFiles : String → Option MainGo.imageInfo := fun s =>
  if s = "a.png" ∨ s = "b.png" then some ⟨[[[7, 7, 7]]], ⟨⟨0, 0⟩, ⟨1, 1⟩⟩, 10⟩ else none

/-- The fingerprint map `twoFiles` with the types of cmd/imgdedup/output.go. -/
def twoInfos : String → Option ImageInfo := fun s =>
  if s = "a.png" ∨ s = "b.png" then some ⟨[[⟨7, 7, 7⟩]], "png", ⟨⟨0, 0⟩, ⟨1, 1⟩⟩, 10, 1⟩ else none

/-- The rational value `m * 2 ^ u` of a rounding result. -/
def fracVal (r : Nat × Int) : ℚ := (r.1 : ℚ) * (2 : ℚ) ^ r.2

/-! ## Rounding -/

theorem ilog2Aux_spec : ∀ (fuel n : Nat), 1 ≤ n → n ≤ fuel →
    2 ^ ilog2Aux fuel n ≤ n ∧ n < 2 ^ (ilog2Aux fuel n + 1) := by
  intro fuel
  induction fuel with
  | zero => intro n h1 h2; omega
  | succ k ih =>
    intro n h1 h2
    unfold ilog2Aux
    by_cases h : n < 2
    · simp [h]; omega
    · simp only [h, if_false]
      have hk := ih (n / 2) (by omega) (by omega)
      obtain ⟨ha, hb⟩ := hk
      constructor
      · rw [pow_succ]; omega
      · rw [pow_succ]; omega

theorem ilog2_spec (n : Nat) (h : 1 ≤ n) : 2 ^ ilog2 n ≤ n ∧ n < 2 ^ (ilog2 n + 1) :=
  ilog2Aux_spec n n h (le_refl n)

/-- `2 ^ t` as a quotient of two natural powers. -/
theorem zpow_two_eq (t : Int) :
    (2 : ℚ) ^ t = ((2 ^ t.toNat : Nat) : ℚ) / ((2 ^ (-t).toNat : Nat) : ℚ) := by
  rcases le_total 0 t with h | h
  · obtain ⟨k, rfl⟩ := Int.eq_ofNat_of_zero_le h
    have : (-(k : Int)).toNat = 0 := by omega
    simp [this]
  · obtain ⟨k, hk⟩ := Int.eq_ofNat_of_zero_le (by omega : 0 ≤ -t)
    have ht : t = -(k : Int) := by omega
    subst ht
    have : (-(k : Int)).toNat = 0 := by omega
    simp [this]

theorem pow2_pos (k : Nat) : (0 : ℚ) < ((2 ^ k : Nat) : ℚ) := by positivity

/-- The scaled fraction used by `roundFrac` is `a / b * 2 ^ (-t)`. -/
theorem scaled_eq (a b : Nat) (t : Int) :
    ((a * 2 ^ (-t).toNat : Nat) : ℚ) / ((b * 2 ^ t.toNat : Nat) : ℚ)
      = (a : ℚ) / b * (2 : ℚ) ^ (-t) := by
  rw [zpow_neg, zpow_two_eq t]
  have h1 := pow2_pos t.toNat
  have h2 := pow2_pos (-t).toNat
  push_cast
  by_cases hb : (b : ℚ) = 0
  · simp [hb]
  · field_simp

/-- Comparison of `2 ^ t` with a fraction, in natural numbers. -/
theorem zpow_le_frac_iff (a b : Nat) (hb : 0 < b) (t : Int) :
    (2 : ℚ) ^ t ≤ (a : ℚ) / b ↔ b * 2 ^ t.toNat ≤ a * 2 ^ (-t).toNat := by
  have hb' : (0 : ℚ) < b := by exact_mod_cast hb
  rw [zpow_two_eq t, div_le_div_iff₀ (pow2_pos _) hb']
  constructor
  · intro h
    have : ((2 ^ t.toNat * b : Nat) : ℚ) ≤ ((a * 2 ^ (-t).toNat : Nat) : ℚ) := by
      push_cast; push_cast at h; linarith
    have := Nat.cast_le.mp this
    linarith
  · intro h
    have : ((2 ^ t.toNat * b : Nat) : ℚ) ≤ ((a * 2 ^ (-t).toNat : Nat) : ℚ) := by
      apply Nat.cast_le.mpr; linarith
    push_cast at this ⊢; linarith

/-- The exponent chosen by `binExp` is a lower bound: `2 ^ e ≤ a / b`. -/
theorem binExp_le (a b : Nat) (ha : 0 < a) (hb : 0 < b) :
    (2 : ℚ) ^ binExp a b ≤ (a : ℚ) / b := by
  unfold binExp
  simp only []
  split_ifs with h
  · exact (zpow_le_frac_iff a b hb _).mpr h
  · obtain ⟨ha1, _⟩ := ilog2_spec a ha
    obtain ⟨_, hb2⟩ := ilog2_spec b hb
    have hb' : (0 : ℚ) < b := by exact_mod_cast hb
    have e1 : (2 : ℚ) ^ ((ilog2 a : Int) - (ilog2 b : Int) - 1)
        = (2 : ℚ) ^ (ilog2 a) / (2 : ℚ) ^ (ilog2 b + 1) := by
      rw [show ((ilog2 a : Int) - (ilog2 b : Int) - 1) = (ilog2 a : Int) - ((ilog2 b + 1 : Nat) : Int) by
        push_cast; ring]
      rw [zpow_sub₀ (by norm_num : (2 : ℚ) ≠ 0), zpow_natCast, zpow_natCast]
    rw [e1]
    have h1 : (2 : ℚ) ^ (ilog2 a) ≤ a := by exact_mod_cast ha1
    have h2 : (b : ℚ) ≤ (2 : ℚ) ^ (ilog2 b + 1) := by exact_mod_cast hb2.le
    exact div_le_div₀ (by positivity) h1 hb' h2

/-- Rounding increases a value by at most the relative error `2 ^ (-p)`. -/
theorem roundFrac_le (p a b : Nat) (hb : 0 < b) :
    fracVal (roundFrac p a b) ≤ (a : ℚ) / b * (1 + (2 : ℚ) ^ (-(p : Int))) := by
  by_cases ha : a = 0
  · simp [roundFrac, ha, fracVal]
  have ha' : 0 < a := Nat.pos_of_ne_zero ha
  have hb' : (0 : ℚ) < b := by exact_mod_cast hb
  have hE := binExp_le a b ha' hb
  have hab : (0 : ℚ) ≤ (a : ℚ) / b := by positivity
  have heps : (0 : ℚ) < (2 : ℚ) ^ (-(p : Int)) := by positivity
  unfold roundFrac
  rw [if_neg ha]
  simp only []
  set u : Int := binExp a b - ((p : Int) - 1) with hu
  set num : Nat := a * 2 ^ (-u).toNat with hnum
  set den : Nat := b * 2 ^ u.toNat with hden
  have hden_pos : 0 < den := by positivity
  have hden' : (0 : ℚ) < den := by exact_mod_cast hden_pos
  have hs : (num : ℚ) / den = (a : ℚ) / b * (2 : ℚ) ^ (-u) := scaled_eq a b u
  have h2u : (0 : ℚ) < (2 : ℚ) ^ u := by positivity
  have hsu : (num : ℚ) / den * (2 : ℚ) ^ u = (a : ℚ) / b := by
    rw [hs, mul_assoc, ← zpow_add₀ (by norm_num : (2 : ℚ) ≠ 0)]; simp
  have hq : ((num / den : Nat) : ℚ) ≤ (num : ℚ) / den := Nat.cast_div_le
  -- the result `q` rounds down
  have hdown : fracVal (num / den, u) ≤ (a : ℚ) / b * (1 + (2 : ℚ) ^ (-(p : Int))) := by
    unfold fracVal
    calc ((num / den : Nat) : ℚ) * (2 : ℚ) ^ u ≤ (num : ℚ) / den * (2 : ℚ) ^ u :=
          mul_le_mul_of_nonneg_right hq h2u.le
      _ = (a : ℚ) / b := hsu
      _ ≤ (a : ℚ) / b * (1 + (2 : ℚ) ^ (-(p : Int))) := by nlinarith
  -- the result `q + 1` rounds up by at most half a unit
  have hup : den ≤ 2 * (num % den) →
      fracVal (num / den + 1, u) ≤ (a : ℚ) / b * (1 + (2 : ℚ) ^ (-(p : Int))) := by
    intro hr
    unfold fracVal
    have hdm : den * (num / den) + num % den = num := Nat.div_add_mod num den
    have hdm' : (den : ℚ) * ((num / den : Nat) : ℚ) + ((num % den : Nat) : ℚ) = num := by
      exact_mod_cast hdm
    have hr' : (den : ℚ) ≤ 2 * ((num % den : Nat) : ℚ) := by exact_mod_cast hr
    have hq1 : (((num / den + 1 : Nat)) : ℚ) ≤ (num : ℚ) / den + 1 / 2 := by
      rw [div_add' _ _ _ hden'.ne', le_div_iff₀ hden']
      push_cast
      nlinarith
    have hhalf : (1 / 2 : ℚ) * (2 : ℚ) ^ u ≤ (a : ℚ) / b * (2 : ℚ) ^ (-(p : Int)) := by
      have : (1 / 2 : ℚ) * (2 : ℚ) ^ u = (2 : ℚ) ^ binExp a b * (2 : ℚ) ^ (-(p : Int)) := by
        rw [← zpow_add₀ (by norm_num : (2 : ℚ) ≠ 0)]
        rw [show binExp a b + -(p : Int) = u + (-1) by rw [hu]; ring]
        rw [zpow_add₀ (by norm_num : (2 : ℚ) ≠ 0)]
        simp; ring
      rw [this]
      exact mul_le_mul_of_nonneg_right hE heps.le
    calc ((num / den + 1 : Nat) : ℚ) * (2 : ℚ) ^ u
        ≤ ((num : ℚ) / den + 1 / 2) * (2 : ℚ) ^ u := mul_le_mul_of_nonneg_right hq1 h2u.le
      _ = (a : ℚ) / b + (1 / 2 : ℚ) * (2 : ℚ) ^ u := by rw [add_mul, hsu]
      _ ≤ (a : ℚ) / b * (1 + (2 : ℚ) ^ (-(p : Int))) := by linarith
  split_ifs with h1 h2 h3
  · exact hdown
  · exact hup (by omega)
  · exact hdown
  · exact hup (by omega)

/-- The exponent chosen by `binExp` is the binary exponent: `a / b < 2 ^ (e + 1)`. -/
theorem binExp_lt (a b : Nat) (ha : 0 < a) (hb : 0 < b) :
    (a : ℚ) / b < (2 : ℚ) ^ (binExp a b + 1) := by
  unfold binExp
  simp only []
  have hb' : (0 : ℚ) < b := by exact_mod_cast hb
  split_ifs with h
  · obtain ⟨_, ha2⟩ := ilog2_spec a ha
    obtain ⟨hb1, _⟩ := ilog2_spec b hb
    have e1 : (2 : ℚ) ^ ((ilog2 a : Int) - (ilog2 b : Int) + 1)
        = (2 : ℚ) ^ (ilog2 a + 1) / (2 : ℚ) ^ (ilog2 b) := by
      rw [show ((ilog2 a : Int) - (ilog2 b : Int) + 1)
          = ((ilog2 a + 1 : Nat) : Int) - ((ilog2 b : Nat) : Int) by push_cast; ring]
      rw [zpow_sub₀ (by norm_num : (2 : ℚ) ≠ 0), zpow_natCast, zpow_natCast]
    rw [e1]
    have h1 : (a : ℚ) < (2 : ℚ) ^ (ilog2 a + 1) := by exact_mod_cast ha2
    have h2 : (2 : ℚ) ^ (ilog2 b) ≤ (b : ℚ) := by exact_mod_cast hb1
    have h3 : (0 : ℚ) < (2 : ℚ) ^ (ilog2 b) := by positivity
    rw [div_lt_div_iff₀ hb' h3]
    calc (a : ℚ) * (2 : ℚ) ^ (ilog2 b) ≤ (a : ℚ) * b :=
          mul_le_mul_of_nonneg_left h2 (by positivity)
      _ < (2 : ℚ) ^ (ilog2 a + 1) * b := mul_lt_mul_of_pos_right h1 hb'
  · have hn := (zpow_le_frac_iff a b hb _).not.mpr h
    rw [not_le] at hn
    rw [show (ilog2 a : Int) - (ilog2 b : Int) - 1 + 1 = (ilog2 a : Int) - (ilog2 b : Int) by ring]
    exact hn

/-- Rounding decreases a value by at most the relative error `2 ^ (-p)`. -/
theorem roundFrac_ge (p a b : Nat) (hb : 0 < b) :
    (a : ℚ) / b * (1 - (2 : ℚ) ^ (-(p : Int))) ≤ fracVal (roundFrac p a b) := by
  by_cases ha : a = 0
  · simp [roundFrac, ha, fracVal]
  have ha' : 0 < a := Nat.pos_of_ne_zero ha
  have hb' : (0 : ℚ) < b := by exact_mod_cast hb
  have hE := binExp_le a b ha' hb
  have hab : (0 : ℚ) ≤ (a : ℚ) / b := by positivity
  have heps : (0 : ℚ) < (2 : ℚ) ^ (-(p : Int)) := by positivity
  unfold roundFrac
  rw [if_neg ha]
  simp only []
  set u : Int := binExp a b - ((p : Int) - 1) with hu
  set num : Nat := a * 2 ^ (-u).toNat with hnum
  set den : Nat := b * 2 ^ u.toNat with hden
  have hden_pos : 0 < den := by positivity
  have hden' : (0 : ℚ) < den := by exact_mod_cast hden_pos
  have hs : (num : ℚ) / den = (a : ℚ) / b * (2 : ℚ) ^ (-u) := scaled_eq a b u
  have h2u : (0 : ℚ) < (2 : ℚ) ^ u := by positivity
  have hsu : (num : ℚ) / den * (2 : ℚ) ^ u = (a : ℚ) / b := by
    rw [hs, mul_assoc, ← zpow_add₀ (by norm_num : (2 : ℚ) ≠ 0)]; simp
  have hdm : den * (num / den) + num % den = num := Nat.div_add_mod num den
  have hdm' : (den : ℚ) * ((num / den : Nat) : ℚ) + ((num % den : Nat) : ℚ) = num := by
    exact_mod_cast hdm
  have hhalf : (1 / 2 : ℚ) * (2 : ℚ) ^ u ≤ (a : ℚ) / b * (2 : ℚ) ^ (-(p : Int)) := by
    have : (1 / 2 : ℚ) * (2 : ℚ) ^ u = (2 : ℚ) ^ binExp a b * (2 : ℚ) ^ (-(p : Int)) := by
      rw [← zpow_add₀ (by norm_num : (2 : ℚ) ≠ 0)]
      rw [show binExp a b + -(p : Int) = u + (-1) by rw [hu]; ring]
      rw [zpow_add₀ (by norm_num : (2 : ℚ) ≠ 0)]
      simp; ring
    rw [this]
    exact mul_le_mul_of_nonneg_right hE heps.le
  -- the result `q + 1` is above the exact value
  have hup : (a : ℚ) / b * (1 - (2 : ℚ) ^ (-(p : Int))) ≤ fracVal (num / den + 1, u) := by
    unfold fracVal
    have hmod : ((num % den : Nat) : ℚ) < den := by exact_mod_cast Nat.mod_lt num hden_pos
    have hq1 : (num : ℚ) / den ≤ (((num / den + 1 : Nat)) : ℚ) := by
      rw [div_le_iff₀ hden']
      push_cast
      nlinarith
    calc (a : ℚ) / b * (1 - (2 : ℚ) ^ (-(p : Int))) ≤ (a : ℚ) / b := by nlinarith
      _ = (num : ℚ) / den * (2 : ℚ) ^ u := hsu.symm
      _ ≤ ((num / den + 1 : Nat) : ℚ) * (2 : ℚ) ^ u := mul_le_mul_of_nonneg_right hq1 h2u.le
  -- the result `q` is below the exact value by at most half a unit
  have hdown : 2 * (num % den) ≤ den →
      (a : ℚ) / b * (1 - (2 : ℚ) ^ (-(p : Int))) ≤ fracVal (num / den, u) := by
    intro hr
    unfold fracVal
    have hr' : 2 * ((num % den : Nat) : ℚ) ≤ (den : ℚ) := by exact_mod_cast hr
    have hq1 : (num : ℚ) / den - 1 / 2 ≤ ((num / den : Nat) : ℚ) := by
      rw [div_sub' _ _ _ hden'.ne', div_le_iff₀ hden']
      nlinarith
    calc (a : ℚ) / b * (1 - (2 : ℚ) ^ (-(p : Int)))
        ≤ (a : ℚ) / b - (1 / 2 : ℚ) * (2 : ℚ) ^ u := by linarith
      _ = ((num : ℚ) / den - 1 / 2) * (2 : ℚ) ^ u := by rw [sub_mul, hsu]
      _ ≤ ((num / den : Nat) : ℚ) * (2 : ℚ) ^ u := mul_le_mul_of_nonneg_right hq1 h2u.le
  split_ifs with h1 h2 h3
  · exact hdown (by omega)
  · exact hup
  · exact hdown (by omega)
  · exact hup

/-- For `u ≤ 0` the natural power `2 ^ (-u)` cancels `2 ^ u`. -/
theorem pow_mul_zpow_cancel (u : Int) (hu : u ≤ 0) :
    ((2 ^ (-u).toNat : Nat) : ℚ) * (2 : ℚ) ^ u = 1 := by
  rw [zpow_two_eq u]
  have h0 : u.toNat = 0 := by omega
  have := pow2_pos (-u).toNat
  rw [h0]; field_simp

/-- A natural number of at most `2 ^ p` is not changed by rounding to `p` bits. -/
theorem roundFrac_exact (p a b k : Nat) (hp : 1 ≤ p) (hb : 0 < b) (h : a = k * b)
    (hk : k ≤ 2 ^ p) : fracVal (roundFrac p a b) = k := by
  by_cases hk0 : k = 0
  · subst hk0; simp [roundFrac, h, fracVal]
  have hk1 : 0 < k := Nat.pos_of_ne_zero hk0
  have ha' : 0 < a := by rw [h]; positivity
  have hb' : (0 : ℚ) < b := by exact_mod_cast hb
  have hE := binExp_le a b ha' hb
  have hab : (a : ℚ) / b = k := by rw [h]; push_cast; field_simp
  rw [hab] at hE
  have hle : (2 : ℚ) ^ binExp a b ≤ (2 : ℚ) ^ (p : Int) := by
    calc (2 : ℚ) ^ binExp a b ≤ k := hE
      _ ≤ (2 : ℚ) ^ (p : Int) := by rw [zpow_natCast]; exact_mod_cast hk
  have hep : binExp a b ≤ p := (zpow_le_zpow_iff_right₀ (by norm_num : (1 : ℚ) < 2)).mp hle
  unfold roundFrac
  rw [if_neg (by omega : ¬ a = 0)]
  simp only []
  set u : Int := binExp a b - ((p : Int) - 1) with hu
  have hden_pos : 0 < b * 2 ^ u.toNat := by positivity
  by_cases hu0 : u ≤ 0
  · have hun : u.toNat = 0 := by omega
    have hnum : a * 2 ^ (-u).toNat = (k * 2 ^ (-u).toNat) * (b * 2 ^ u.toNat) := by
      rw [hun, h]; ring
    have hmod : (a * 2 ^ (-u).toNat) % (b * 2 ^ u.toNat) = 0 := by
      rw [hnum]; exact Nat.mul_mod_left _ _
    have hdiv : (a * 2 ^ (-u).toNat) / (b * 2 ^ u.toNat) = k * 2 ^ (-u).toNat := by
      rw [hnum]; exact Nat.mul_div_cancel _ hden_pos
    rw [hmod, hdiv, if_pos (by omega)]
    unfold fracVal
    simp only []
    push_cast
    have := pow_mul_zpow_cancel u hu0
    push_cast at this
    rw [mul_assoc, this, mul_one]
  · have hu1 : u = 1 := by omega
    have hbe : binExp a b = p := by omega
    rw [hbe] at hE
    have hk2 : k = 2 ^ p := by
      have : ((2 ^ p : Nat) : ℚ) ≤ (k : ℚ) := by
        rw [zpow_natCast] at hE; push_cast; exact hE
      have : 2 ^ p ≤ k := by exact_mod_cast this
      omega
    obtain ⟨p1, rfl⟩ : ∃ p1, p = p1 + 1 := ⟨p - 1, by omega⟩
    have hun : u.toNat = 1 := by omega
    have hnn : (-u).toNat = 0 := by omega
    have hnum : a * 2 ^ (-u).toNat = (2 ^ p1) * (b * 2 ^ u.toNat) := by
      rw [hun, hnn, h, hk2]; ring
    have hmod : (a * 2 ^ (-u).toNat) % (b * 2 ^ u.toNat) = 0 := by
      rw [hnum]; exact Nat.mul_mod_left _ _
    have hdiv : (a * 2 ^ (-u).toNat) / (b * 2 ^ u.toNat) = 2 ^ p1 := by
      rw [hnum]; exact Nat.mul_div_cancel _ hden_pos
    rw [hmod, hdiv, if_pos (by omega)]
    unfold fracVal
    simp only []
    rw [hu1, hk2]
    push_cast
    ring

theorem roundFrac_zero (p b : Nat) : roundFrac p 0 b = (0, 0) := by
  simp [roundFrac]

/-- The integer part of a magnitude is at most its value. -/
theorem magFloor_le (m : Nat) (e : Int) : (Fl.magFloor m e : ℚ) ≤ fracVal (m, e) := by
  unfold Fl.magFloor fracVal
  simp only []
  split_ifs with h
  · have : (-e).toNat = 0 := by omega
    rw [zpow_two_eq e, this]; push_cast; simp
  · have h0 : e.toNat = 0 := by omega
    rw [zpow_two_eq e, h0]
    calc ((m / 2 ^ (-e).toNat : Nat) : ℚ) ≤ (m : ℚ) / ((2 ^ (-e).toNat : Nat) : ℚ) := Nat.cast_div_le
      _ = (m : ℚ) * (((2 ^ 0 : Nat) : ℚ) / ((2 ^ (-e).toNat : Nat) : ℚ)) := by
          push_cast; ring

/-- The integer part of a magnitude whose value is a natural number is that number. -/
theorem magFloor_eq (m : Nat) (e : Int) (k : Nat) (h : fracVal (m, e) = k) :
    Fl.magFloor m e = k := by
  unfold fracVal at h
  simp only [] at h
  rw [zpow_two_eq e] at h
  unfold Fl.magFloor
  have hp := pow2_pos (-e).toNat
  split_ifs with h1
  · have h0 : (-e).toNat = 0 := by omega
    rw [h0] at h
    have : ((m * 2 ^ e.toNat : Nat) : ℚ) = k := by push_cast; push_cast at h; simpa using h
    exact_mod_cast this
  · have h0 : e.toNat = 0 := by omega
    rw [h0] at h
    have : ((m : Nat) : ℚ) = ((k * 2 ^ (-e).toNat : Nat) : ℚ) := by
      push_cast; push_cast at h hp; field_simp at h; linarith
    have hm : m = k * 2 ^ (-e).toNat := by exact_mod_cast this
    rw [hm]; exact Nat.mul_div_cancel _ (by positivity)

/-! ## Floating-point operations on non-negative finite values -/

/-- The relative rounding error bound `2 ^ (-p)`. -/
theorem eps_pos (p : Nat) : (0 : ℚ) < (2 : ℚ) ^ (-(p : Int)) := by positivity

theorem ofInt_fin_exact (p : Nat) (n : Int) (hp : 1 ≤ p) (h : 0 ≤ n) (hlt : n ≤ 2 ^ p) :
    ∃ m e, Fl.ofInt p n = Fl.fin false m e ∧ fracVal (m, e) = (n : ℚ) := by
  obtain ⟨k, rfl⟩ := Int.eq_ofNat_of_zero_le h
  refine ⟨(roundFrac p k 1).1, (roundFrac p k 1).2, ?_, ?_⟩
  · unfold Fl.ofInt
    simp
  · have hk : k ≤ 2 ^ p := by exact_mod_cast hlt
    have := roundFrac_exact p k 1 k hp (by norm_num) (by ring) hk
    simpa using this

theorem div_fin_le (p m1 m2 : Nat) (e1 e2 : Int) (h2 : m2 ≠ 0) :
    ∃ m e, Fl.div p (Fl.fin false m1 e1) (Fl.fin false m2 e2) = Fl.fin false m e ∧
      fracVal (m, e) ≤ fracVal (m1, e1) / fracVal (m2, e2) * (1 + (2 : ℚ) ^ (-(p : Int))) := by
  refine ⟨(roundFrac p (m1 * 2 ^ (e1 - e2).toNat) (m2 * 2 ^ (-(e1 - e2)).toNat)).1,
    (roundFrac p (m1 * 2 ^ (e1 - e2).toNat) (m2 * 2 ^ (-(e1 - e2)).toNat)).2, ?_, ?_⟩
  · unfold Fl.div
    simp only [h2, if_false, Bool.xor_false]
  · have hpos : 0 < m2 * 2 ^ (-(e1 - e2)).toNat := by
      have : 0 < m2 := Nat.pos_of_ne_zero h2
      positivity
    have := roundFrac_le p (m1 * 2 ^ (e1 - e2).toNat) (m2 * 2 ^ (-(e1 - e2)).toNat) hpos
    have hs := scaled_eq m1 m2 (-(e1 - e2))
    rw [neg_neg] at hs
    rw [hs] at this
    have hv : (m1 : ℚ) / m2 * (2 : ℚ) ^ (e1 - e2) = fracVal (m1, e1) / fracVal (m2, e2) := by
      unfold fracVal
      simp only []
      rw [zpow_sub₀ (by norm_num : (2 : ℚ) ≠ 0)]
      have : (m2 : ℚ) ≠ 0 := by exact_mod_cast h2
      field_simp
    rw [hv] at this
    exact this

theorem mul_fin_le (p m1 m2 : Nat) (e1 e2 : Int) :
    ∃ m e, Fl.mul p (Fl.fin false m1 e1) (Fl.fin false m2 e2) = Fl.fin false m e ∧
      fracVal (m, e) ≤ fracVal (m1, e1) * fracVal (m2, e2) * (1 + (2 : ℚ) ^ (-(p : Int))) := by
  refine ⟨(roundFrac p (m1 * m2 * 2 ^ (e1 + e2).toNat) (2 ^ (-(e1 + e2)).toNat)).1,
    (roundFrac p (m1 * m2 * 2 ^ (e1 + e2).toNat) (2 ^ (-(e1 + e2)).toNat)).2, ?_, ?_⟩
  · unfold Fl.mul
    simp only [Bool.xor_false]
  · have hpos : 0 < 2 ^ (-(e1 + e2)).toNat := by positivity
    have := roundFrac_le p (m1 * m2 * 2 ^ (e1 + e2).toNat) (2 ^ (-(e1 + e2)).toNat) hpos
    have hs := scaled_eq (m1 * m2) 1 (-(e1 + e2))
    rw [neg_neg, one_mul] at hs
    rw [hs] at this
    have hv : ((m1 * m2 : Nat) : ℚ) / ((1 : Nat) : ℚ) * (2 : ℚ) ^ (e1 + e2)
        = fracVal (m1, e1) * fracVal (m2, e2) := by
      unfold fracVal
      simp only []
      rw [zpow_add₀ (by norm_num : (2 : ℚ) ≠ 0)]
      push_cast
      ring
    rw [hv] at this
    exact this

/-- Conversion `uint64(f)` of a non-negative finite `f` below `2 ^ 64`. -/
theorem toU64_fin (arch : Arch) (m : Nat) (e : Int) (h : fracVal (m, e) < 2 ^ 64) :
    toU64 arch (Fl.fin false m e) = Fl.magFloor m e := by
  have hle := magFloor_le m e
  have hlt : ((Fl.magFloor m e : Nat) : ℚ) < 2 ^ 64 := lt_of_le_of_lt hle h
  have hlt' : Fl.magFloor m e < 2 ^ 64 := by exact_mod_cast hlt
  unfold toU64 Fl.trunc
  simp only []
  rw [if_pos]
  · simp
  · constructor
    · exact Int.natCast_nonneg _
    · exact_mod_cast hlt'

theorem fracVal_man_ne_zero (m : Nat) (e : Int) (h : 0 < fracVal (m, e)) : m ≠ 0 := by
  intro h0
  subst h0
  simp [fracVal] at h

/-- A 16-bit sample is scaled into the range of a byte. -/
theorem scaleSample_le (arch : Arch) (r : Nat) (hr : r ≤ 65535) : scaleSample arch r ≤ 255 := by
  obtain ⟨mx, ex, hfx, hvx⟩ := ofInt_fin_exact 24 (r : Int) (by norm_num) (by omega) (by norm_num; omega)
  obtain ⟨mw, ew, hfw, hvw⟩ := ofInt_fin_exact 24 65535 (by norm_num) (by norm_num) (by norm_num)
  obtain ⟨mn, en, hfn, hvn⟩ := ofInt_fin_exact 24 255 (by norm_num) (by norm_num) (by norm_num)
  have hmw : mw ≠ 0 := fracVal_man_ne_zero mw ew (by rw [hvw]; norm_num)
  obtain ⟨md, ed, hfd, hvd⟩ := div_fin_le 24 mx mw ex ew hmw
  obtain ⟨mm, em, hfm, hvm⟩ := mul_fin_le 24 md mn ed en
  rw [hvx, hvw] at hvd
  rw [hvn] at hvm
  have heps : (2 : ℚ) ^ (-((24 : Nat) : Int)) = 1 / 16777216 := by norm_num
  rw [heps] at hvd hvm
  have hrq : (r : ℚ) ≤ 65535 := by exact_mod_cast hr
  have hd1 : fracVal (md, ed) ≤ 1 + 1 / 16777216 := by
    refine le_trans hvd ?_
    push_cast
    have : (r : ℚ) / 65535 ≤ 1 := by rw [div_le_one (by norm_num)]; exact hrq
    nlinarith
  have hkey : fracVal (mm, em) < 256 := by
    have h1 : fracVal (mm, em) ≤ (1 + 1 / 16777216) * ((255 : Int) : ℚ) * (1 + 1 / 16777216) :=
      le_trans hvm (mul_le_mul_of_nonneg_right
        (mul_le_mul_of_nonneg_right hd1 (by norm_num)) (by norm_num))
    have h2 : ((1 + 1 / 16777216) * ((255 : Int) : ℚ) * (1 + 1 / 16777216) : ℚ) < 256 := by
      norm_num
    linarith
  unfold scaleSample
  rw [hfx, hfw, hfn, hfd, hfm, toU64_fin arch mm em (by linarith)]
  have h1 := magFloor_le mm em
  have h2 : ((Fl.magFloor mm em : Nat) : ℚ) < 256 := lt_of_le_of_lt h1 hkey
  have h3 : Fl.magFloor mm em < 256 := by exact_mod_cast h2
  omega

/-! ## Function absdiff -/

theorem pow_toNat_cast (t : Int) (h : 0 ≤ t) : ((2 ^ t.toNat : Nat) : ℚ) = (2 : ℚ) ^ t := by
  obtain ⟨k, rfl⟩ := Int.eq_ofNat_of_zero_le h
  simp

theorem natDist_comm (x y : Nat) : natDist x y = natDist y x := by
  unfold natDist; split_ifs <;> omega

theorem natDist_self (x : Nat) : natDist x x = 0 := by
  unfold natDist; simp

theorem natDist_le_max (x y : Nat) : natDist x y ≤ max x y := by
  unfold natDist; split_ifs <;> omega

theorem natDist_cast (x y : Nat) : ((natDist x y : Nat) : ℚ) = |(x : ℚ) - (y : ℚ)| := by
  unfold natDist
  split_ifs with h
  · have : (x : ℚ) ≤ y := by exact_mod_cast h
    rw [abs_of_nonpos (by linarith), Nat.cast_sub h]; ring
  · have h' : y ≤ x := by omega
    have : (y : ℚ) ≤ x := by exact_mod_cast h'
    rw [abs_of_nonneg (by linarith), Nat.cast_sub h']

/-- The shape of `|f - g|` for two non-negative finite floats. -/
theorem abs_sub_fin (p m1 m2 : Nat) (e1 e2 : Int) :
    Fl.abs (Fl.sub p (Fl.fin false m1 e1) (Fl.fin false m2 e2))
      = Fl.fin false
        (roundFrac p
          ((((m1 * 2 ^ (e1 - min e1 e2).toNat : Nat) : Int)
            - ((m2 * 2 ^ (e2 - min e1 e2).toNat : Nat) : Int)).natAbs * 2 ^ (min e1 e2).toNat)
          (2 ^ (-(min e1 e2)).toNat)).1
        (roundFrac p
          ((((m1 * 2 ^ (e1 - min e1 e2).toNat : Nat) : Int)
            - ((m2 * 2 ^ (e2 - min e1 e2).toNat : Nat) : Int)).natAbs * 2 ^ (min e1 e2).toNat)
          (2 ^ (-(min e1 e2)).toNat)).2 := by
  unfold Fl.sub Fl.abs
  simp

/-- The exact magnitude that `abs_sub_fin` rounds. -/
theorem abs_sub_val (m1 m2 : Nat) (e1 e2 : Int) :
    (((((m1 * 2 ^ (e1 - min e1 e2).toNat : Nat) : Int)
        - ((m2 * 2 ^ (e2 - min e1 e2).toNat : Nat) : Int)).natAbs : Nat) : ℚ)
      * (2 : ℚ) ^ (min e1 e2)
      = |fracVal (m1, e1) - fracVal (m2, e2)| := by
  have h1 : 0 ≤ e1 - min e1 e2 := by have := min_le_left e1 e2; omega
  have h2 : 0 ≤ e2 - min e1 e2 := by have := min_le_right e1 e2; omega
  have hpos : (0 : ℚ) < (2 : ℚ) ^ (min e1 e2) := by positivity
  rw [Nat.cast_natAbs, Int.cast_abs]
  push_cast
  have q1 := pow_toNat_cast _ h1
  have q2 := pow_toNat_cast _ h2
  push_cast at q1 q2
  rw [q1, q2]
  have habs : ∀ X : ℚ, |X| * (2 : ℚ) ^ (min e1 e2) = |X * (2 : ℚ) ^ (min e1 e2)| := by
    intro X; rw [abs_mul, abs_of_pos hpos]
  rw [habs]
  congr 1
  unfold fracVal
  simp only []
  rw [sub_mul, mul_assoc, mul_assoc, ← zpow_add₀ (by norm_num : (2 : ℚ) ≠ 0),
    ← zpow_add₀ (by norm_num : (2 : ℚ) ≠ 0)]
  simp

/-- Up to `2 ^ 53` the function `absdiff` is the exact absolute difference. -/
theorem absdiff_exact (arch : Arch) (a b : Nat) (ha : a ≤ 2 ^ 53) (hb : b ≤ 2 ^ 53) :
    absdiff arch a b = natDist a b := by
  obtain ⟨m1, e1, hf1, hv1⟩ :=
    ofInt_fin_exact 53 (a : Int) (by norm_num) (by omega) (by exact_mod_cast ha)
  obtain ⟨m2, e2, hf2, hv2⟩ :=
    ofInt_fin_exact 53 (b : Int) (by norm_num) (by omega) (by exact_mod_cast hb)
  unfold absdiff
  rw [hf1, hf2, abs_sub_fin]
  have hval := abs_sub_val m1 m2 e1 e2
  rw [hv1, hv2] at hval
  push_cast at hval
  rw [← natDist_cast] at hval
  set A : Nat := (((m1 * 2 ^ (e1 - min e1 e2).toNat : Nat) : Int)
          - ((m2 * 2 ^ (e2 - min e1 e2).toNat : Nat) : Int)).natAbs * 2 ^ (min e1 e2).toNat with hA
  set B : Nat := 2 ^ (-(min e1 e2)).toNat with hB
  have hBpos : 0 < B := by positivity
  have hk : natDist a b ≤ 2 ^ 53 := le_trans (natDist_le_max a b) (max_le ha hb)
  have hAB : A = natDist a b * B := by
    have hz := zpow_two_eq (min e1 e2)
    rw [hz] at hval
    have hBq : (0 : ℚ) < (B : ℚ) := by exact_mod_cast hBpos
    have : ((A : Nat) : ℚ) = ((natDist a b * B : Nat) : ℚ) := by
      rw [hA, hB]
      push_cast
      push_cast at hval
      have hBq' : (0 : ℚ) < (2 : ℚ) ^ (-(min e1 e2)).toNat := by positivity
      field_simp at hval
      linarith
    exact_mod_cast this
  have hr := roundFrac_exact 53 A B (natDist a b) (by norm_num) hBpos hAB hk
  have hlt : fracVal ((roundFrac 53 A B).1, (roundFrac 53 A B).2) < 2 ^ 64 := by
    show fracVal (roundFrac 53 A B) < 2 ^ 64
    rw [hr]
    have : ((natDist a b : Nat) : ℚ) ≤ ((2 ^ 53 : Nat) : ℚ) := by exact_mod_cast hk
    push_cast at this
    linarith
  rw [toU64_fin arch _ _ hlt]
  exact magFloor_eq _ _ _ hr

theorem ofInt_natCast (p : Nat) (a : Nat) :
    Fl.ofInt p (a : Int) = Fl.fin false (roundFrac p a 1).1 (roundFrac p a 1).2 := by
  unfold Fl.ofInt
  simp

/-- Function `absdiff` is symmetric, whatever the size of its arguments. -/
theorem absdiff_comm (arch : Arch) (a b : Nat) : absdiff arch a b = absdiff arch b a := by
  unfold absdiff
  rw [ofInt_natCast, ofInt_natCast, abs_sub_fin, abs_sub_fin]
  rw [min_comm (roundFrac 53 b 1).2 (roundFrac 53 a 1).2]
  rw [← Int.natAbs_neg ((((roundFrac 53 b 1).1
    * 2 ^ ((roundFrac 53 b 1).2 - min (roundFrac 53 a 1).2 (roundFrac 53 b 1).2).toNat : Nat) : Int)
    - (((roundFrac 53 a 1).1
    * 2 ^ ((roundFrac 53 a 1).2 - min (roundFrac 53 a 1).2 (roundFrac 53 b 1).2).toNat : Nat) : Int))]
  rw [neg_sub]

/-- Function `absdiff` of equal arguments is zero, whatever their size. -/
theorem absdiff_self (arch : Arch) (a : Nat) : absdiff arch a a = 0 := by
  unfold absdiff
  rw [ofInt_natCast, abs_sub_fin]
  simp only [sub_self, Int.natAbs_zero, zero_mul, roundFrac_zero]
  unfold toU64 Fl.trunc Fl.magFloor
  simp

theorem cellDiff_comm (arch : Arch) (aa bb : Cell) : cellDiff arch aa bb = cellDiff arch bb aa := by
  unfold cellDiff
  rw [absdiff_comm arch aa.c0 bb.c0, absdiff_comm arch aa.c1 bb.c1, absdiff_comm arch aa.c2 bb.c2]

theorem cellDiff_self (arch : Arch) (aa : Cell) : cellDiff arch aa aa = 0 := by
  unfold cellDiff
  simp [absdiff_self]

theorem cellDiff_exact (arch : Arch) (aa bb : Cell)
    (ha : aa.c0 ≤ 2 ^ 53 ∧ aa.c1 ≤ 2 ^ 53 ∧ aa.c2 ≤ 2 ^ 53)
    (hb : bb.c0 ≤ 2 ^ 53 ∧ bb.c1 ≤ 2 ^ 53 ∧ bb.c2 ≤ 2 ^ 53) :
    cellDiff arch aa bb = specCellDiff aa bb := by
  obtain ⟨a0, a1, a2⟩ := ha
  obtain ⟨b0, b1, b2⟩ := hb
  have d0 : natDist aa.c0 bb.c0 ≤ 2 ^ 53 := le_trans (natDist_le_max _ _) (max_le a0 b0)
  have d1 : natDist aa.c1 bb.c1 ≤ 2 ^ 53 := le_trans (natDist_le_max _ _) (max_le a1 b1)
  have d2 : natDist aa.c2 bb.c2 ≤ 2 ^ 53 := le_trans (natDist_le_max _ _) (max_le a2 b2)
  have d01 : natDist (natDist aa.c0 bb.c0) (natDist aa.c1 bb.c1) ≤ 2 ^ 53 :=
    le_trans (natDist_le_max _ _) (max_le d0 d1)
  unfold cellDiff specCellDiff
  rw [absdiff_exact arch _ _ a0 b0, absdiff_exact arch _ _ a1 b1, absdiff_exact arch _ _ a2 b2,
    absdiff_exact arch _ _ d0 d1, absdiff_exact arch _ _ d01 d2]

/-! ## Grids and loops -/

theorem cellAt_neg (p : pictable) (i j : Int) (h : i < 0 ∨ j < 0) : cellAt p i j = none := by
  unfold cellAt; rw [if_pos h]

theorem cellAt_nonneg (p : pictable) (i j : Int) (hi : 0 ≤ i) (hj : 0 ≤ j) :
    cellAt p i j = (p[i.toNat]?).bind (fun row => row[j.toNat]?) := by
  unfold cellAt
  rw [if_neg (by omega)]
  cases p[i.toNat]? <;> rfl

/-- What a successful `modifyCell` does. -/
theorem modifyCell_some (p p1 : pictable) (i j : Int) (f : Cell → Cell)
    (h : modifyCell p i j f = some p1) :
    ∃ c, cellAt p i j = some c ∧ (∀ n, IsGrid n p → IsGrid n p1) ∧
      ∀ i1 j1, cellAt p1 i1 j1 = if i1 = i ∧ j1 = j then some (f c) else cellAt p i1 j1 := by
  unfold modifyCell at h
  by_cases hneg : i < 0 ∨ j < 0
  · rw [if_pos hneg] at h; exact absurd h (by simp)
  rw [if_neg hneg] at h
  have hi : 0 ≤ i := by omega
  have hj : 0 ≤ j := by omega
  cases hrow : p[i.toNat]? with
  | none => rw [hrow] at h; exact absurd h (by simp)
  | some row =>
    rw [hrow] at h
    simp only [] at h
    cases hc : row[j.toNat]? with
    | none => rw [hc] at h; exact absurd h (by simp)
    | some c =>
      rw [hc] at h
      simp only [Option.some.injEq] at h
      subst h
      have hilt : i.toNat < p.length := by
        by_contra hcon
        rw [List.getElem?_eq_none (by omega)] at hrow
        exact absurd hrow (by simp)
      have hjlt : j.toNat < row.length := by
        by_contra hcon
        rw [List.getElem?_eq_none (by omega)] at hc
        exact absurd hc (by simp)
      refine ⟨c, ?_, ?_, ?_⟩
      · rw [cellAt_nonneg p i j hi hj, hrow]; simpa using hc
      · intro n hg
        obtain ⟨hlen, hrows⟩ := hg
        refine ⟨by rw [List.length_set]; exact hlen, ?_⟩
        intro r hr
        rcases List.mem_or_eq_of_mem_set hr with h1 | h1
        · exact hrows r h1
        · rw [h1, List.length_set]
          exact hrows row (List.mem_iff_getElem?.mpr ⟨i.toNat, hrow⟩)
      · intro i1 j1
        by_cases hneg1 : i1 < 0 ∨ j1 < 0
        · rw [cellAt_neg _ _ _ hneg1, cellAt_neg _ _ _ hneg1]
          rw [if_neg (by omega)]
        have hi1 : 0 ≤ i1 := by omega
        have hj1 : 0 ≤ j1 := by omega
        rw [cellAt_nonneg _ i1 j1 hi1 hj1, cellAt_nonneg _ i1 j1 hi1 hj1]
        rw [List.getElem?_set]
        by_cases hii : i.toNat = i1.toNat
        · have hie : i1 = i := by omega
          subst hie
          rw [if_pos rfl, if_pos hilt]
          simp only [Option.some_bind]
          rw [List.getElem?_set]
          by_cases hjj : j.toNat = j1.toNat
          · have hje : j1 = j := by omega
            subst hje
            simp [hjlt]
          · rw [if_neg hjj, if_neg (by omega), hrow]
            rfl
        · rw [if_neg hii, if_neg (by omega)]

/-- A cell that can be read lies on an index that is not negative. -/
theorem cellAt_some_nonneg (p : pictable) (i j : Int) (c : Cell) (h : cellAt p i j = some c) :
    0 ≤ i ∧ 0 ≤ j := by
  by_contra hcon
  rw [cellAt_neg p i j (by omega)] at h
  exact absurd h (by simp)

theorem forEach_append {ι σ : Type} (body : ι → σ → Option σ) (l1 l2 : List ι) (s : σ) :
    forEach body (l1 ++ l2) s = (forEach body l1 s).bind (forEach body l2) := by
  induction l1 generalizing s with
  | nil => simp [forEach]
  | cons i is ih =>
    simp only [List.cons_append, forEach]
    cases body i s with
    | none => simp
    | some s1 => simpa using ih s1

theorem forEach_map {ι κ σ : Type} (body : κ → σ → Option σ) (h : ι → κ) (l : List ι) (s : σ) :
    forEach body (l.map h) s = forEach (fun i t => body (h i) t) l s := by
  induction l generalizing s with
  | nil => simp [forEach]
  | cons i is ih =>
    simp only [List.map_cons, forEach]
    cases body (h i) s with
    | none => simp
    | some s1 => simpa using ih s1

/-- Two nested loops are one loop over the list of index pairs. -/
theorem forEach_nested {α β γ σ : Type} (f : α → β → σ → Option σ) (mk : α → β → γ)
    (g : γ → σ → Option σ) (hg : ∀ a b s, g (mk a b) s = f a b s)
    (as : List α) (bs : List β) (s : σ) :
    forEach (fun a t => forEach (fun b t1 => f a b t1) bs t) as s
      = forEach g (as.flatMap (fun a => bs.map (fun b => mk a b))) s := by
  induction as generalizing s with
  | nil => simp [forEach]
  | cons a as ih =>
    simp only [List.flatMap_cons, forEach, forEach_append, forEach_map]
    have : (fun i t => g (mk a i) t) = (fun b t1 => f a b t1) := by
      funext b t; exact hg a b t
    rw [this]
    cases forEach (fun b t1 => f a b t1) bs s with
    | none => simp
    | some s1 => simpa using ih s1

/-- An invariant over the indices handled so far, for a loop that ended normally. -/
theorem forEach_track {ι σ : Type} (I : List ι → σ → Prop) (body : ι → σ → Option σ)
    (l : List ι) (done : List ι) (s s1 : σ) (hs : I done s)
    (step : ∀ d i t t1, i ∈ l → I d t → body i t = some t1 → I (d ++ [i]) t1)
    (h : forEach body l s = some s1) : I (done ++ l) s1 := by
  induction l generalizing done s with
  | nil =>
    simp only [forEach, Option.some.injEq] at h
    subst h
    simpa using hs
  | cons i is ih =>
    simp only [forEach] at h
    cases hb : body i s with
    | none => rw [hb] at h; exact absurd h (by simp)
    | some t =>
      rw [hb] at h
      simp only [] at h
      have h1 := step done i s t (List.mem_cons_self i is) hs hb
      have := ih (done ++ [i]) t h1
        (fun d k u u1 hk hI hbk => step d k u u1 (List.mem_cons_of_mem i hk) hI hbk) h
      simpa using this

theorem mem_intRange (lo hi k : Int) : k ∈ intRange lo hi ↔ lo ≤ k ∧ k < hi := by
  unfold intRange
  simp only [List.mem_map, List.mem_range]
  constructor
  · rintro ⟨n, hn, rfl⟩; omega
  · rintro ⟨h1, h2⟩
    exact ⟨(k - lo).toNat, by omega, by omega⟩

theorem intRange_pairwise (lo hi : Int) : List.Pairwise (fun a b => a < b) (intRange lo hi) := by
  unfold intRange
  rw [List.pairwise_map]
  refine List.Pairwise.imp ?_ (List.pairwise_lt_range _)
  intro a b hab
  omega

/-- The pixel loop as one loop over `pixelList`. -/
theorem accumulate_eq (arch : Arch) (m : Image) (size : Int) (avgdata : pictable) :
    accumulate arch m size avgdata
      = forEach (fun xy acc => addPixel arch m size xy.1 xy.2 acc) (pixelList m) avgdata := by
  unfold accumulate pixelList
  exact forEach_nested (fun y x acc => addPixel arch m size x y acc) (fun y x => (x, y))
    (fun xy acc => addPixel arch m size xy.1 xy.2 acc) (fun _ _ _ => rfl) _ _ _

/-- The index pairs visited by the averaging loop. -/
theorem divideAll_eq (size : Int) (divisor : Nat) (avgdata : pictable) :
    divideAll size divisor avgdata
      = forEach (fun ij acc => modifyCell acc ij.1 ij.2
            (fun v => ⟨v.c0 / divisor, v.c1 / divisor, v.c2 / divisor⟩))
          ((intRange 0 size).flatMap (fun rX => (intRange 0 size).map (fun rY => (rX, rY))))
          avgdata := by
  unfold divideAll
  exact forEach_nested
    (fun rX rY acc => modifyCell acc rX rY
      (fun v => ⟨v.c0 / divisor, v.c1 / divisor, v.c2 / divisor⟩))
    (fun rX rY => (rX, rY))
    (fun ij acc => modifyCell acc ij.1 ij.2
      (fun v => ⟨v.c0 / divisor, v.c1 / divisor, v.c2 / divisor⟩)) (fun _ _ _ => rfl) _ _ _

theorem makePanics_eq_false (elemSize : Nat) (len : Int) :
    makePanics elemSize len = false ↔ 0 ≤ len ∧ (elemSize : Int) * len ≤ maxAlloc := by
  unfold makePanics
  rw [decide_eq_false_iff_not]
  omega

/-- A length that `make` accepts gives the grid of zero cells. -/
theorem newPictable_some (n : Int) (h : makePanics 24 n = false) :
    newPictable n n = some (List.replicate n.toNat (List.replicate n.toNat ⟨0, 0, 0⟩)) := by
  unfold newPictable
  simp [h]

/-- A grid returned by `newPictable n n` has `n` rows of `n` zero cells. -/
theorem newPictable_grid (n : Int) (p : pictable) (h : newPictable n n = some p) :
    makePanics 24 n = false ∧ IsGrid n.toNat p ∧
      ∀ i j c, cellAt p i j = some c → c = ⟨0, 0, 0⟩ := by
  have hm : makePanics 24 n = false := by
    cases hmk : makePanics 24 n with
    | false => rfl
    | true =>
      unfold newPictable at h
      simp [hmk] at h
  rw [newPictable_some n hm] at h
  simp only [Option.some.injEq] at h
  subst h
  refine ⟨hm, ?_, ?_⟩
  · refine ⟨by simp, ?_⟩
    intro row hrow
    rw [List.eq_of_mem_replicate hrow]; simp
  · intro i j c hc
    obtain ⟨hi, hj⟩ := cellAt_some_nonneg _ _ _ _ hc
    rw [cellAt_nonneg _ _ _ hi hj] at hc
    rw [List.getElem?_replicate] at hc
    by_cases h1 : i.toNat < n.toNat
    · rw [if_pos h1] at hc
      simp only [Option.some_bind] at hc
      rw [List.getElem?_replicate] at hc
      by_cases h2 : j.toNat < n.toNat
      · rw [if_pos h2] at hc
        simpa using hc.symm
      · rw [if_neg h2] at hc
        exact absurd hc (by simp)
    · rw [if_neg h1] at hc
      exact absurd hc (by simp)

theorem cellAt_some_lt (n : Nat) (p : pictable) (hp : IsGrid n p) (i j : Int) (c : Cell)
    (h : cellAt p i j = some c) : (0 ≤ i ∧ i < n) ∧ (0 ≤ j ∧ j < n) := by
  obtain ⟨hi, hj⟩ := cellAt_some_nonneg _ _ _ _ h
  rw [cellAt_nonneg _ _ _ hi hj] at h
  obtain ⟨hlen, hrows⟩ := hp
  cases hrow : p[i.toNat]? with
  | none => rw [hrow] at h; exact absurd h (by simp)
  | some row =>
    rw [hrow] at h
    simp only [Option.some_bind] at h
    have hmem : row ∈ p := List.mem_iff_getElem?.mpr ⟨_, hrow⟩
    obtain ⟨h1, _⟩ := List.getElem?_eq_some.mp hrow
    obtain ⟨h2, _⟩ := List.getElem?_eq_some.mp h
    rw [hrows row hmem] at h2
    omega

/-! ## Function pictableFromImage -/

/-- The sides of a decoded image that starts at the origin: their product is at most
`maxAlloc`, and so is each side when the other one is not zero. -/
theorem decoded_bounds (d : DecodedImage)
    (hminX : d.Bounds.Min.X = 0) (hminY : d.Bounds.Min.Y = 0)
    (hW : 0 ≤ d.Bounds.Max.X) (hH : 0 ≤ d.Bounds.Max.Y) :
    d.Bounds.Max.X * d.Bounds.Max.Y ≤ 2 ^ 48 ∧
      (0 < d.Bounds.Max.Y → d.Bounds.Max.X ≤ 2 ^ 48) ∧
      (0 < d.Bounds.Max.X → d.Bounds.Max.Y ≤ 2 ^ 48) := by
  have hheld := d.held
  rw [hminX, hminY] at hheld
  simp only [sub_zero] at hheld
  unfold maxAlloc at hheld
  have hprod : d.Bounds.Max.X * d.Bounds.Max.Y ≤ 2 ^ 48 := by
    have hc : ((d.Bounds.Max.X.toNat * d.Bounds.Max.Y.toNat : Nat) : Int) ≤ ((2 ^ 48 : Nat) : Int) :=
      Int.ofNat_le.mpr hheld
    push_cast at hc
    rw [Int.toNat_of_nonneg hW, Int.toNat_of_nonneg hH] at hc
    exact hc
  refine ⟨hprod, ?_, ?_⟩
  · intro hpos
    calc d.Bounds.Max.X = d.Bounds.Max.X * 1 := (mul_one _).symm
      _ ≤ d.Bounds.Max.X * d.Bounds.Max.Y := mul_le_mul_of_nonneg_left (by omega) hW
      _ ≤ 2 ^ 48 := hprod
  · intro hpos
    calc d.Bounds.Max.Y = 1 * d.Bounds.Max.Y := (one_mul _).symm
      _ ≤ d.Bounds.Max.X * d.Bounds.Max.Y := mul_le_mul_of_nonneg_right (by omega) hH
      _ ≤ 2 ^ 48 := hprod

/-- A subdivision count that `make` rejects makes `pictableFromImage` panic. -/
theorem pictableFromImage_makePanics (arch : Arch) (m : Image) (size : Int)
    (h : makePanics 24 size = true) : pictableFromImage arch m size = .panicked := by
  unfold pictableFromImage newPictable
  simp [h]

theorem addU64_le (a b : Nat) : addU64 a b ≤ a + b := by
  unfold addU64; exact Nat.mod_le _ _

/-- After the pixel loop every channel sum is at most 255 times the number of pixels added
into the cell. -/
theorem accumulate_bound (arch : Arch) (m : Image) (size : Int) (n : Nat) (p acc : pictable)
    (hs : ∀ x y, (m.At x y).r ≤ 65535 ∧ (m.At x y).g ≤ 65535 ∧ (m.At x y).b ≤ 65535)
    (hgrid : IsGrid n p)
    (hzero : ∀ i j c, cellAt p i j = some c → c = ⟨0, 0, 0⟩)
    (h : accumulate arch m size p = some acc) :
    IsGrid n acc ∧ ∀ i j c, cellAt acc i j = some c →
      c.c0 ≤ 255 * pixelsIn arch m size i j ∧ c.c1 ≤ 255 * pixelsIn arch m size i j ∧
        c.c2 ≤ 255 * pixelsIn arch m size i j := by
  rw [accumulate_eq] at h
  have key := forEach_track
    (fun (done : List (Int × Int)) (t : pictable) =>
      IsGrid n t ∧ ∀ i j c, cellAt t i j = some c →
        c.c0 ≤ 255 * done.countP (fun xy =>
          decide (gridIndex arch xy.1 m.Bounds.Max.X size = i ∧
            gridIndex arch xy.2 m.Bounds.Max.Y size = j)) ∧
        c.c1 ≤ 255 * done.countP (fun xy =>
          decide (gridIndex arch xy.1 m.Bounds.Max.X size = i ∧
            gridIndex arch xy.2 m.Bounds.Max.Y size = j)) ∧
        c.c2 ≤ 255 * done.countP (fun xy =>
          decide (gridIndex arch xy.1 m.Bounds.Max.X size = i ∧
            gridIndex arch xy.2 m.Bounds.Max.Y size = j)))
    (fun xy acc => addPixel arch m size xy.1 xy.2 acc) (pixelList m) [] p acc
    ?_ ?_ h
  · simpa [pixelsIn] using key
  · refine ⟨hgrid, ?_⟩
    intro i j c hc
    rw [hzero i j c hc]
    simp
  · rintro d ⟨x, y⟩ t t1 _ ⟨htg, ht⟩ hb
    unfold addPixel at hb
    simp only [] at hb
    obtain ⟨c0, hc0, hg, hcell⟩ := modifyCell_some _ _ _ _ _ hb
    refine ⟨hg n htg, ?_⟩
    intro i j c hc
    rw [hcell i j] at hc
    simp only [List.countP_append, List.countP_cons, List.countP_nil]
    by_cases hij : i = gridIndex arch x m.Bounds.Max.X size ∧
        j = gridIndex arch y m.Bounds.Max.Y size
    · rw [if_pos hij] at hc
      simp only [Option.some.injEq] at hc
      obtain ⟨hi, hj⟩ := hij
      subst hi hj
      have hold := ht _ _ c0 hc0
      obtain ⟨hr, hg1, hb1⟩ := hs x y
      have s0 := scaleSample_le arch _ hr
      have s1 := scaleSample_le arch _ hg1
      have s2 := scaleSample_le arch _ hb1
      have a0 := addU64_le c0.c0 (scaleSample arch (m.At x y).r)
      have a1 := addU64_le c0.c1 (scaleSample arch (m.At x y).g)
      have a2 := addU64_le c0.c2 (scaleSample arch (m.At x y).b)
      subst hc
      simp only [and_self, decide_True, if_true]
      omega
    · rw [if_neg hij] at hc
      have hold := ht i j c hc
      have hdec : decide (gridIndex arch x m.Bounds.Max.X size = i ∧
          gridIndex arch y m.Bounds.Max.Y size = j) = false := by
        rw [decide_eq_false_iff_not]
        rintro ⟨h1, h2⟩
        exact hij ⟨h1.symm, h2.symm⟩
      simp only [hdec]
      simpa using hold

/-- After the averaging loop every channel is at most the bound on its sum divided by the
divisor. -/
theorem divideAll_bound (size : Int) (divisor : Nat) (p res : pictable) (B : Int → Int → Nat)
    (hgrid : IsGrid size.toNat p)
    (hB : ∀ i j c, cellAt p i j = some c → c.c0 ≤ B i j ∧ c.c1 ≤ B i j ∧ c.c2 ≤ B i j)
    (h : divideAll size divisor p = some res) :
    ∀ i j c, cellAt res i j = some c →
      c.c0 ≤ B i j / divisor ∧ c.c1 ≤ B i j / divisor ∧ c.c2 ≤ B i j / divisor := by
  rw [divideAll_eq] at h
  have key := forEach_track
    (fun (done : List (Int × Int)) (t : pictable) =>
      IsGrid size.toNat t ∧ ∀ i j c, cellAt t i j = some c →
        (c.c0 ≤ B i j ∧ c.c1 ≤ B i j ∧ c.c2 ≤ B i j) ∧
        ((i, j) ∈ done →
          c.c0 ≤ B i j / divisor ∧ c.c1 ≤ B i j / divisor ∧ c.c2 ≤ B i j / divisor))
    (fun ij acc => modifyCell acc ij.1 ij.2
      (fun v => ⟨v.c0 / divisor, v.c1 / divisor, v.c2 / divisor⟩))
    ((intRange 0 size).flatMap (fun rX => (intRange 0 size).map (fun rY => (rX, rY))))
    [] p res ?_ ?_ h
  · obtain ⟨hg, hk⟩ := key
    intro i j c hc
    obtain ⟨⟨hi0, hi1⟩, ⟨hj0, hj1⟩⟩ := cellAt_some_lt _ _ hg i j c hc
    refine (hk i j c hc).2 ?_
    simp only [List.nil_append, List.mem_flatMap, List.mem_map, Prod.mk.injEq, mem_intRange]
    exact ⟨i, ⟨hi0, by omega⟩, j, ⟨hj0, by omega⟩, rfl, rfl⟩
  · refine ⟨hgrid, ?_⟩
    intro i j c hc
    exact ⟨hB i j c hc, by simp⟩
  · rintro d ⟨rX, rY⟩ t t1 _ ⟨htg, ht⟩ hb
    obtain ⟨c0, hc0, hg, hcell⟩ := modifyCell_some _ _ _ _ _ hb
    refine ⟨hg _ htg, ?_⟩
    intro i j c hc
    rw [hcell i j] at hc
    by_cases hij : i = rX ∧ j = rY
    · rw [if_pos hij] at hc
      simp only [Option.some.injEq] at hc
      obtain ⟨hi, hj⟩ := hij
      subst hi hj
      obtain ⟨⟨b0, b1, b2⟩, _⟩ := ht _ _ c0 hc0
      subst hc
      simp only []
      have d0 : c0.c0 / divisor ≤ B i j / divisor := Nat.div_le_div_right b0
      have d1 : c0.c1 / divisor ≤ B i j / divisor := Nat.div_le_div_right b1
      have d2 : c0.c2 / divisor ≤ B i j / divisor := Nat.div_le_div_right b2
      have e0 : c0.c0 / divisor ≤ c0.c0 := Nat.div_le_self _ _
      have e1 : c0.c1 / divisor ≤ c0.c1 := Nat.div_le_self _ _
      have e2 : c0.c2 / divisor ≤ c0.c2 := Nat.div_le_self _ _
      exact ⟨⟨le_trans e0 b0, le_trans e1 b1, le_trans e2 b2⟩, fun _ => ⟨d0, d1, d2⟩⟩
    · rw [if_neg hij] at hc
      obtain ⟨hb1, hb2⟩ := ht i j c hc
      refine ⟨hb1, ?_⟩
      intro hmem
      simp only [List.mem_append, List.mem_singleton, Prod.mk.injEq] at hmem
      rcases hmem with h1 | h1
      · exact hb2 h1
      · exact absurd h1 hij

/-- The parts of a normal, error-free return of `pictableFromImage`. -/
theorem pictableFromImage_ok (arch : Arch) (m : Image) (size : Int) (g : pictable)
    (h : pictableFromImage arch m size = .ret (g, none)) :
    0 < size ∧ divisorOf m size ≠ 0 ∧ ∃ p acc, newPictable size size = some p ∧
      accumulate arch m size p = some acc ∧ divideAll size (divisorOf m size) acc = some g := by
  unfold pictableFromImage at h
  cases hnew : newPictable size size with
  | none => rw [hnew] at h; exact absurd h (by simp)
  | some p =>
    rw [hnew] at h
    simp only [] at h
    cases hacc : accumulate arch m size p with
    | none => rw [hacc] at h; exact absurd h (by simp)
    | some acc =>
      rw [hacc] at h
      simp only [] at h
      by_cases h0 : size = 0
      · rw [if_pos h0] at h; exact absurd h (by simp)
      rw [if_neg h0] at h
      by_cases hd : divisorOf m size = 0
      · rw [if_pos hd] at h
        simp at h
      rw [if_neg hd] at h
      cases hdiv : divideAll size (divisorOf m size) acc with
      | none => rw [hdiv] at h; exact absurd h (by simp)
      | some res =>
        rw [hdiv] at h
        simp only [Outcome.ret.injEq, Prod.mk.injEq, and_true] at h
        subst h
        have hnn : 0 ≤ size :=
          ((makePanics_eq_false 24 size).mp (newPictable_grid size p hnew).1).1
        exact ⟨by omega, hd, p, acc, rfl, hacc, hdiv⟩

/-- A loop that adds `t i` to a `uint64` accumulator computes the sum modulo `2 ^ 64`. -/
theorem forEach_addU64 {ι : Type} (body : ι → Nat → Option Nat) (t : ι → Nat) (l : List ι)
    (h : ∀ i ∈ l, ∀ s, ∃ r, body i s = some r ∧ r % 2 ^ 64 = (s + t i) % 2 ^ 64 ∧
      (s < 2 ^ 64 → r < 2 ^ 64)) (s : Nat) :
    ∃ r, forEach body l s = some r ∧ r % 2 ^ 64 = (s + (l.map t).sum) % 2 ^ 64 ∧
      (s < 2 ^ 64 → r < 2 ^ 64) := by
  induction l generalizing s with
  | nil => exact ⟨s, rfl, by simp, fun h => h⟩
  | cons i is ih =>
    obtain ⟨r1, hb, hmod, hlt⟩ := h i (List.mem_cons_self i is) s
    obtain ⟨r, hr, hrmod, hrlt⟩ :=
      ih (fun k hk u => h k (List.mem_cons_of_mem i hk) u) r1
    refine ⟨r, ?_, ?_, fun hs => hrlt (hlt hs)⟩
    · simp only [forEach, hb]; exact hr
    · simp only [List.map_cons, List.sum_cons]
      have h64 : (2 : Nat) ^ 64 = 18446744073709551616 := by norm_num
      rw [h64] at hmod hrmod ⊢
      omega

theorem cellAt_grid_eq (n : Nat) (p : pictable) (hp : IsGrid n p) (i j : Int)
    (hi : 0 ≤ i ∧ i < n) (hj : 0 ≤ j ∧ j < n) :
    cellAt p i j = some (cellOr0 p i.toNat j.toNat) := by
  obtain ⟨hlen, hrows⟩ := hp
  have hilt : i.toNat < p.length := by omega
  have hmem : p[i.toNat] ∈ p := List.getElem_mem hilt
  have hjlt : j.toNat < (p[i.toNat]).length := by rw [hrows _ hmem]; omega
  rw [cellAt_nonneg p i j hi.1 hj.1, List.getElem?_eq_getElem hilt]
  simp only [Option.some_bind]
  unfold cellOr0
  simp [List.getElem?_eq_getElem hilt, List.getElem?_eq_getElem hjlt]

theorem intRange_zero_map {β : Type} (n : Nat) (f : Int → β) :
    (intRange 0 (n : Int)).map f = (List.range n).map (fun (k : Nat) => f (k : Int)) := by
  unfold intRange
  simp [List.map_map, Function.comp_def]

/-- On two `n × n` grids the loops of `Diff` end normally and return the sum of the cell
differences modulo `2 ^ 64`. -/
theorem diffLoop_grid (arch : Arch) (n : Nat) (l r : pictable) (hl : IsGrid n l)
    (hr : IsGrid n r) :
    diffLoop arch n l r = some
      (((List.range n).map (fun i =>
        ((List.range n).map (fun j =>
          cellDiff arch (cellOr0 l i j) (cellOr0 r i j))).sum)).sum % 2 ^ 64) := by
  have inner : ∀ i ∈ intRange 0 (n : Int), ∀ s, ∃ res,
      forEach (fun rY xdiff =>
          match cellAt l i rY, cellAt r i rY with
          | some aa, some bb => some (addU64 xdiff (cellDiff arch aa bb))
          | _, _ => none) (intRange 0 (n : Int)) s = some res ∧
        res % 2 ^ 64 = (s + ((intRange 0 (n : Int)).map (fun j =>
          cellDiff arch (cellOr0 l i.toNat j.toNat) (cellOr0 r i.toNat j.toNat))).sum) % 2 ^ 64 ∧
        (s < 2 ^ 64 → res < 2 ^ 64) := by
    intro i hi s
    rw [mem_intRange] at hi
    apply forEach_addU64
    intro j hj u
    rw [mem_intRange] at hj
    rw [cellAt_grid_eq n l hl i j hi hj, cellAt_grid_eq n r hr i j hi hj]
    refine ⟨_, rfl, ?_, ?_⟩
    · unfold addU64; exact Nat.mod_mod _ _
    · intro _; unfold addU64; exact Nat.mod_lt _ (by norm_num)
  obtain ⟨res, hres, hmod, hlt⟩ := forEach_addU64 _ _ (intRange 0 (n : Int)) inner 0
  have hres_lt := hlt (by norm_num)
  rw [Nat.zero_add, Nat.mod_eq_of_lt hres_lt, intRange_zero_map] at hmod
  simp only [intRange_zero_map, Int.toNat_ofNat] at hmod
  rw [← hmod]
  exact hres

theorem diffLoop_comm (arch : Arch) (s : Int) (l r : pictable) :
    diffLoop arch s l r = diffLoop arch s r l := by
  unfold diffLoop
  congr 1
  funext rX xd
  congr 1
  funext rY xd1
  cases cellAt l rX rY <;> cases cellAt r rX rY <;> simp [cellDiff_comm]

/-- A bound of `2 ^ 53` on every channel of a grid holds for every cell read by `cellOr0`. -/
theorem cellOr0_small (p : pictable)
    (hp : ∀ row ∈ p, ∀ c ∈ row, c.c0 ≤ 2 ^ 53 ∧ c.c1 ≤ 2 ^ 53 ∧ c.c2 ≤ 2 ^ 53) (i j : Nat) :
    (cellOr0 p i j).c0 ≤ 2 ^ 53 ∧ (cellOr0 p i j).c1 ≤ 2 ^ 53 ∧ (cellOr0 p i j).c2 ≤ 2 ^ 53 := by
  unfold cellOr0
  rw [List.getD_eq_getElem?_getD, List.getD_eq_getElem?_getD]
  cases hrow : p[i]? with
  | none => simp
  | some row =>
    simp only [Option.getD_some]
    cases hc : row[j]? with
    | none => simp
    | some c =>
      simp only [Option.getD_some]
      exact hp row (List.mem_iff_getElem?.mpr ⟨i, hrow⟩) c (List.mem_iff_getElem?.mpr ⟨j, hc⟩)

theorem sum_map_zero {ι : Type} (l : List ι) : (l.map (fun _ => (0 : Nat))).sum = 0 := by
  induction l with
  | nil => rfl
  | cons a as ih => simp [ih]

/-! ## The drivers: claims C3, C9 and C10 -/

/-- Every integer above the last code point is converted to the same one-rune string. -/
theorem runeString_invalid (n : Int) (h : 0x10FFFF < n) :
    runeString n = String.singleton (Char.ofNat 0xFFFD) := by
  unfold runeString
  rw [if_neg (by omega)]

/-- The cache key does not change with the modification time once both times are above
`0x10FFFF` seconds (13 January 1970). -/
theorem cacheUnit_mtime_irrelevant (imgpath : String) (subdivisions size m1 m2 : Int)
    (h1 : 0x10FFFF < m1) (h2 : 0x10FFFF < m2) :
    cacheUnit imgpath subdivisions size m1 = cacheUnit imgpath subdivisions size m2 := by
  unfold cacheUnit
  rw [runeString_invalid m1 h1, runeString_invalid m2 h2]

/-- The cache key does not change with the file size once both sizes are above `0x10FFFF`
bytes. -/
theorem cacheUnit_size_irrelevant (imgpath : String) (subdivisions s1 s2 mtime : Int)
    (h1 : 0x10FFFF < s1) (h2 : 0x10FFFF < s2) :
    cacheUnit imgpath subdivisions s1 mtime = cacheUnit imgpath subdivisions s2 mtime := by
  unfold cacheUnit
  rw [runeString_invalid s1 h1, runeString_invalid s2 h2]

/-- C3 (the code at the failing input): for the path `/a.png` and 10 subdivisions the string
`cacheUnit` is the same for the modification times 1700000000 and 1700000001 of a file of
1000 bytes, and the same for the sizes 2000000 and 3000000 at one modification time. -/
theorem cacheUnit_collision :
    cacheUnit "/a.png" 10 1000 1700000000 = cacheUnit "/a.png" 10 1000 1700000001 ∧
    cacheUnit "/a.png" 10 2000000 1700000000 = cacheUnit "/a.png" 10 3000000 1700000000 := by
  decide

/-- For a tolerance that is not negative the threshold test is the strict comparison of the
distance with the tolerance. -/
theorem belowTolerance_iff (xdiff : Nat) (tolerance : Int) (h0 : 0 ≤ tolerance)
    (h1 : tolerance < 2 ^ 63) : belowTolerance xdiff tolerance = true ↔ (xdiff : Int) < tolerance := by
  unfold belowTolerance wrapU64
  have h64 : (2 : Int) ^ 64 = 18446744073709551616 := by norm_num
  have h63 : (2 : Int) ^ 63 = 9223372036854775808 := by norm_num
  rw [h64, decide_eq_true_iff]
  omega

/-- With the tolerance 0 the threshold test fails for every distance. -/
theorem belowTolerance_zero (xdiff : Nat) : belowTolerance xdiff 0 = false := by
  unfold belowTolerance wrapU64
  simp

/-- A negative tolerance is converted to a number of at least `2 ^ 63`. -/
theorem belowTolerance_negative (xdiff : Nat) (tolerance : Int) (h0 : tolerance < 0)
    (h1 : -(2 ^ 63) ≤ tolerance) (hx : xdiff < 2 ^ 63) : belowTolerance xdiff tolerance = true := by
  unfold belowTolerance wrapU64
  have h64 : (2 : Int) ^ 64 = 18446744073709551616 := by norm_num
  have h63 : (2 : Int) ^ 63 = 9223372036854775808 := by norm_num
  have h63n : (2 : Nat) ^ 63 = 9223372036854775808 := by norm_num
  rw [h63] at h1
  rw [h63n] at hx
  rw [h64, decide_eq_true_iff]
  omega

/-- C9 (the code at the failing input): with the tolerance `-1` the pair loops of main.go and
of output.go print the pair of two distinct files whose distance is 0, although 0 is not
below `-1`. -/
theorem negative_tolerance_reports_pair :
    MainGo.pairBody indefiniteArch 1 (-1) twoFiles "a.png" "b.png" = .ret (some 0) ∧
    OutputGo.pairBody (fun _ _ _ => 0) 1 (-1) twoInfos "a.png" "b.png" = some 0 ∧
    ¬ ((0 : Int) < -1) := by
  decide

theorem mem_pairLoop (boundI boundJ i j : Int) :
    (i, j) ∈ pairLoop boundI boundJ ↔ (0 ≤ i ∧ i < boundI) ∧ (i < j ∧ j < boundJ) := by
  unfold pairLoop
  simp only [List.mem_flatMap, List.mem_map, Prod.mk.injEq, mem_intRange]
  constructor
  · rintro ⟨i1, hi, j1, hj, rfl, rfl⟩; exact ⟨hi, by omega, hj.2⟩
  · rintro ⟨hi, hj⟩; exact ⟨i, hi, j, ⟨by omega, hj.2⟩, rfl, rfl⟩

/-- The pair loop of main.go visits exactly the index pairs `0 ≤ i < j ≤ L - 1`. -/
theorem MainGo_mem_pairs (fileLength i j : Int) :
    (i, j) ∈ MainGo.pairs fileLength ↔ 0 ≤ i ∧ i < j ∧ j ≤ fileLength - 1 := by
  unfold MainGo.pairs
  rw [mem_pairLoop]
  omega

/-- The pair loop of output.go visits exactly the index pairs `0 ≤ i < j ≤ L - 1`. -/
theorem OutputGo_mem_pairs (fileLength i j : Int) :
    (i, j) ∈ OutputGo.pairs fileLength ↔ 0 ≤ i ∧ i < j ∧ j ≤ fileLength - 1 := by
  unfold OutputGo.pairs
  rw [mem_pairLoop]
  omega

/-- The pair loop of imgdedup.go visits exactly the index pairs `0 ≤ i < j ≤ L - 2`: the last
file of the list is in no pair. -/
theorem ImgdedupGo_mem_pairs (fileLength i j : Int) :
    (i, j) ∈ ImgdedupGo.pairs fileLength ↔ 0 ≤ i ∧ i < j ∧ j ≤ fileLength - 2 := by
  unfold ImgdedupGo.pairs
  rw [mem_pairLoop]
  omega

/-- A pair loop visits its index pairs in strictly increasing order, first by `i`, then by
`j`; so it visits no pair twice. -/
theorem pairLoop_sorted (boundI boundJ : Int) :
    List.Pairwise (fun a b => a.1 < b.1 ∨ (a.1 = b.1 ∧ a.2 < b.2)) (pairLoop boundI boundJ) := by
  unfold pairLoop
  rw [List.pairwise_flatMap]
  constructor
  · intro i _
    rw [List.pairwise_map]
    refine List.Pairwise.imp ?_ (intRange_pairwise _ _)
    intro a b hab
    exact Or.inr ⟨rfl, hab⟩
  · refine List.Pairwise.imp ?_ (intRange_pairwise _ _)
    intro a b hab x hx y hy
    simp only [List.mem_map] at hx hy
    obtain ⟨_, _, rfl⟩ := hx
    obtain ⟨_, _, rfl⟩ := hy
    exact Or.inl hab

/-- C10 (the code at the failing input): for a list of two files the pair loop of imgdedup.go
visits no pair, while those of main.go and output.go visit the pair `(0, 1)`; for four files it
visits three of the six pairs and none with the last file. -/
theorem imgdedup_go_skips_last_file :
    ImgdedupGo.pairs 2 = [] ∧ MainGo.pairs 2 = [(0, 1)] ∧ OutputGo.pairs 2 = [(0, 1)] ∧
    ImgdedupGo.pairs 4 = [(0, 1), (0, 2), (1, 2)] ∧
    MainGo.pairs 4 = [(0, 1), (0, 2), (0, 3), (1, 2), (1, 3), (2, 3)] := by
  decide

/-! ## Function Diff: claims C1, C6, C7 and C8 -/

/-- C1 (as amended): for two fingerprints with `Subdivisions = N`, `N × N` grids and all channel
values at most `2 ^ 53`, `Diff` returns no error and the distance is the sum over all cells of
`| |Δr − Δg| − Δb |`, reduced modulo `2 ^ 64`. -/
theorem Diff_eq_specDistance (arch : Arch) (a b : ImageInfo) (N : Nat)
    (ha : a.Subdivisions = N) (hb : b.Subdivisions = N)
    (hga : IsGrid N a.Data) (hgb : IsGrid N b.Data)
    (hsa : ∀ row ∈ a.Data, ∀ c ∈ row, c.c0 ≤ 2 ^ 53 ∧ c.c1 ≤ 2 ^ 53 ∧ c.c2 ≤ 2 ^ 53)
    (hsb : ∀ row ∈ b.Data, ∀ c ∈ row, c.c0 ≤ 2 ^ 53 ∧ c.c1 ≤ 2 ^ 53 ∧ c.c2 ≤ 2 ^ 53) :
    Diff arch a b = .ret (specDistance N a.Data b.Data % 2 ^ 64, none) := by
  unfold Diff
  rw [if_neg (by rw [ha, hb]; simp), ha, diffLoop_grid arch N _ _ hga hgb]
  have hsum : ((List.range N).map (fun i =>
        ((List.range N).map (fun j =>
          cellDiff arch (cellOr0 a.Data i j) (cellOr0 b.Data i j))).sum)).sum
      = specDistance N a.Data b.Data := by
    unfold specDistance
    refine congrArg List.sum (List.map_congr_left ?_)
    intro i _
    refine congrArg List.sum (List.map_congr_left ?_)
    intro j _
    exact cellDiff_exact arch _ _ (cellOr0_small a.Data hsa i j) (cellOr0_small b.Data hsb i j)
  rw [hsum]

/-- C1, witness: the two `2 × 2` fingerprints `gridA` and `gridB`, whose distance is
`0 + 2 + 176 + 255 = 433`. -/
theorem Diff_eq_specDistance_witness :
    ((fingerprint gridA 2).Subdivisions = (2 : Nat) ∧
      (fingerprint gridB 2).Subdivisions = (2 : Nat) ∧
      IsGrid 2 (fingerprint gridA 2).Data ∧ IsGrid 2 (fingerprint gridB 2).Data ∧
      (∀ row ∈ (fingerprint gridA 2).Data, ∀ c ∈ row,
        c.c0 ≤ 2 ^ 53 ∧ c.c1 ≤ 2 ^ 53 ∧ c.c2 ≤ 2 ^ 53) ∧
      (∀ row ∈ (fingerprint gridB 2).Data, ∀ c ∈ row,
        c.c0 ≤ 2 ^ 53 ∧ c.c1 ≤ 2 ^ 53 ∧ c.c2 ≤ 2 ^ 53)) ∧
    Diff indefiniteArch (fingerprint gridA 2) (fingerprint gridB 2)
      = .ret (specDistance 2 (fingerprint gridA 2).Data (fingerprint gridB 2).Data % 2 ^ 64,
          none) ∧
    specDistance 2 gridA gridB = 433 :=
  ⟨by decide,
    Diff_eq_specDistance indefiniteArch (fingerprint gridA 2) (fingerprint gridB 2) 2
      rfl rfl (by decide) (by decide) (by decide) (by decide),
    by decide⟩

set_option maxRecDepth 100000 in
/-- C1, counterexample: on the two `1 × 1` fingerprints whose red values are `2 ^ 53 + 1` and
`0`, `Diff` returns `2 ^ 53` although the sum of the claim is `2 ^ 53 + 1`. -/
theorem Diff_inexact_above_2_pow_53 :
    ((fingerprint gridOdd 1).Subdivisions = (1 : Nat) ∧
      (fingerprint gridZero 1).Subdivisions = (1 : Nat) ∧
      IsGrid 1 (fingerprint gridOdd 1).Data ∧ IsGrid 1 (fingerprint gridZero 1).Data) ∧
    Diff indefiniteArch (fingerprint gridOdd 1) (fingerprint gridZero 1)
      = .ret (2 ^ 53, none) ∧
    specDistance 1 (fingerprint gridOdd 1).Data (fingerprint gridZero 1).Data = 2 ^ 53 + 1 := by
  decide

/-- C6: for a fingerprint whose grid has `Subdivisions × Subdivisions` cells, `Diff(a, a)`
returns the distance 0 and no error. -/
theorem Diff_self (arch : Arch) (a : ImageInfo) (N : Nat) (hs : a.Subdivisions = N)
    (hg : IsGrid N a.Data) : Diff arch a a = .ret (0, none) := by
  unfold Diff
  rw [if_neg (by simp), hs, diffLoop_grid arch N _ _ hg hg]
  simp only [cellDiff_self, sum_map_zero, Nat.zero_mod]

/-- C6, witness: the `2 × 2` fingerprint `gridMax`. -/
theorem Diff_self_witness :
    ((fingerprint gridMax 2).Subdivisions = (2 : Nat) ∧ IsGrid 2 (fingerprint gridMax 2).Data) ∧
    Diff indefiniteArch (fingerprint gridMax 2) (fingerprint gridMax 2) = .ret (0, none) :=
  ⟨by decide, Diff_self indefiniteArch (fingerprint gridMax 2) 2 rfl (by decide)⟩

/-- C7: for two fingerprints with equal `Subdivisions = N` and `N × N` grids, `Diff(a, b)` and
`Diff(b, a)` both return normally, without error and with the same distance. -/
theorem Diff_comm (arch : Arch) (a b : ImageInfo) (N : Nat)
    (ha : a.Subdivisions = N) (hb : b.Subdivisions = N)
    (hga : IsGrid N a.Data) (hgb : IsGrid N b.Data) :
    ∃ d, Diff arch a b = .ret (d, none) ∧ Diff arch b a = .ret (d, none) := by
  refine ⟨((List.range N).map (fun i =>
        ((List.range N).map (fun j =>
          cellDiff arch (cellOr0 a.Data i j) (cellOr0 b.Data i j))).sum)).sum % 2 ^ 64, ?_, ?_⟩
  · unfold Diff
    rw [if_neg (by rw [ha, hb]; simp), ha, diffLoop_grid arch N _ _ hga hgb]
  · unfold Diff
    rw [if_neg (by rw [ha, hb]; simp), hb, diffLoop_comm, diffLoop_grid arch N _ _ hga hgb]

/-- C7, witness: the two `2 × 2` fingerprints `gridMax` and `gridB`. -/
theorem Diff_comm_witness :
    ((fingerprint gridMax 2).Subdivisions = (2 : Nat) ∧
      (fingerprint gridB 2).Subdivisions = (2 : Nat) ∧
      IsGrid 2 (fingerprint gridMax 2).Data ∧ IsGrid 2 (fingerprint gridB 2).Data) ∧
    ∃ d, Diff indefiniteArch (fingerprint gridMax 2) (fingerprint gridB 2) = .ret (d, none) ∧
      Diff indefiniteArch (fingerprint gridB 2) (fingerprint gridMax 2) = .ret (d, none) :=
  ⟨by decide,
    Diff_comm indefiniteArch (fingerprint gridMax 2) (fingerprint gridB 2) 2
      rfl rfl (by decide) (by decide)⟩

/-- C8: when the two `Subdivisions` differ, `Diff` returns the distance 0 together with
`ErrorDissimilarSubdivisions`, whatever the grids hold; and whenever `Diff` returns an error,
the two `Subdivisions` differ, the distance is 0 and the error is
`ErrorDissimilarSubdivisions`. -/
theorem Diff_dissimilar (arch : Arch) (a b : ImageInfo) :
    (a.Subdivisions ≠ b.Subdivisions →
      Diff arch a b = .ret (0, some ErrorDissimilarSubdivisions)) ∧
    (∀ d e, Diff arch a b = .ret (d, some e) →
      a.Subdivisions ≠ b.Subdivisions ∧ d = 0 ∧ e = ErrorDissimilarSubdivisions) := by
  constructor
  · intro h
    unfold Diff
    rw [if_pos h]
  · intro d e h
    unfold Diff at h
    by_cases hs : a.Subdivisions ≠ b.Subdivisions
    · rw [if_pos hs] at h
      simp only [Outcome.ret.injEq, Prod.mk.injEq, Option.some.injEq] at h
      exact ⟨hs, h.1.symm, h.2.symm⟩
    · rw [if_neg hs] at h
      cases hl : diffLoop arch a.Subdivisions a.Data b.Data with
      | none => rw [hl] at h; exact absurd h (by simp)
      | some x => rw [hl] at h; simp at h

/-- C8, witness: fingerprints with 1 and 2 subdivisions and grids of no matching shape. -/
theorem Diff_dissimilar_witness :
    (fingerprint [] 1).Subdivisions ≠ (fingerprint gridZero 2).Subdivisions ∧
    Diff indefiniteArch (fingerprint [] 1) (fingerprint gridZero 2)
      = .ret (0, some ErrorDissimilarSubdivisions) :=
  ⟨by decide,
    (Diff_dissimilar indefiniteArch (fingerprint [] 1) (fingerprint gridZero 2)).1 (by decide)⟩

/-! ## Function pictableFromImage: claims C2, C4 and C5 -/

/-- C2 (as amended): when every sample of the pixel source is in `[0, 65535]` and
`pictableFromImage` returns a grid, each channel of the cell `(i, j)` is at most
`255 * k / D`, with `k` the number of pixels that the index computation sends to the cell and
`D` the divisor; so the channel is in `[0, 255]` whenever `k ≤ D`. -/
theorem pictableFromImage_channel_bound (arch : Arch) (m : Image) (size : Int) (g : pictable)
    (hs : ∀ x y, (m.At x y).r ≤ 65535 ∧ (m.At x y).g ≤ 65535 ∧ (m.At x y).b ≤ 65535)
    (h : pictableFromImage arch m size = .ret (g, none)) :
    ∀ i j c, cellAt g i j = some c →
      (c.c0 ≤ 255 * pixelsIn arch m size i j / divisorOf m size ∧
        c.c1 ≤ 255 * pixelsIn arch m size i j / divisorOf m size ∧
        c.c2 ≤ 255 * pixelsIn arch m size i j / divisorOf m size) ∧
      (pixelsIn arch m size i j ≤ divisorOf m size → c.c0 ≤ 255 ∧ c.c1 ≤ 255 ∧ c.c2 ≤ 255) := by
  obtain ⟨hpos, hd, p, acc, hnew, hacc, hdiv⟩ := pictableFromImage_ok arch m size g h
  obtain ⟨_, hgrid, hzero⟩ := newPictable_grid size p hnew
  obtain ⟨haccg, hbound⟩ := accumulate_bound arch m size size.toNat p acc hs hgrid hzero hacc
  have hfin := divideAll_bound size (divisorOf m size) acc g
    (fun i j => 255 * pixelsIn arch m size i j) haccg hbound hdiv
  intro i j c hc
  have hb := hfin i j c hc
  refine ⟨hb, ?_⟩
  intro hk
  have hle : 255 * pixelsIn arch m size i j / divisorOf m size ≤ 255 := by
    apply Nat.div_le_of_le_mul
    calc 255 * pixelsIn arch m size i j ≤ 255 * divisorOf m size := Nat.mul_le_mul_left _ hk
      _ = divisorOf m size * 255 := Nat.mul_comm _ _
  exact ⟨le_trans hb.1 hle, le_trans hb.2.1 hle, le_trans hb.2.2 hle⟩

set_option maxRecDepth 100000 in
/-- C2, witness: the white `4 × 4` image with 2 subdivisions; every cell receives 4 pixels and
the divisor is 4. -/
theorem pictableFromImage_channel_bound_witness :
    ((∀ x y, ((uniformImage 4 4 white).At x y).r ≤ 65535 ∧
        ((uniformImage 4 4 white).At x y).g ≤ 65535 ∧
        ((uniformImage 4 4 white).At x y).b ≤ 65535) ∧
      pictableFromImage indefiniteArch (uniformImage 4 4 white) 2
        = .ret ([[⟨255, 255, 255⟩, ⟨255, 255, 255⟩], [⟨255, 255, 255⟩, ⟨255, 255, 255⟩]],
            none)) ∧
    ∀ i j c,
      cellAt [[⟨255, 255, 255⟩, ⟨255, 255, 255⟩], [⟨255, 255, 255⟩, ⟨255, 255, 255⟩]] i j
          = some c →
        (c.c0 ≤ 255 * pixelsIn indefiniteArch (uniformImage 4 4 white) 2 i j
            / divisorOf (uniformImage 4 4 white) 2 ∧
          c.c1 ≤ 255 * pixelsIn indefiniteArch (uniformImage 4 4 white) 2 i j
            / divisorOf (uniformImage 4 4 white) 2 ∧
          c.c2 ≤ 255 * pixelsIn indefiniteArch (uniformImage 4 4 white) 2 i j
            / divisorOf (uniformImage 4 4 white) 2) ∧
        (pixelsIn indefiniteArch (uniformImage 4 4 white) 2 i j
            ≤ divisorOf (uniformImage 4 4 white) 2 → c.c0 ≤ 255 ∧ c.c1 ≤ 255 ∧ c.c2 ≤ 255) :=
  ⟨⟨fun _ _ => ⟨Nat.le_refl _, Nat.le_refl _, Nat.le_refl _⟩, by decide⟩,
    pictableFromImage_channel_bound indefiniteArch (uniformImage 4 4 white) 2
      [[⟨255, 255, 255⟩, ⟨255, 255, 255⟩], [⟨255, 255, 255⟩, ⟨255, 255, 255⟩]]
      (fun _ _ => ⟨Nat.le_refl _, Nat.le_refl _, Nat.le_refl _⟩) (by decide)⟩

set_option maxRecDepth 100000 in
/-- C2, counterexample: the white `3 × 3` image, all samples `65535`, with 2 subdivisions. The
divisor is `1 * 1`, the cell `(0, 0)` receives the four pixels with `x, y ≤ 1`, and its channels
are `4 * 255 = 1020`. -/
theorem pictableFromImage_cell_above_255 :
    (white.r ≤ 65535 ∧ white.g ≤ 65535 ∧ white.b ≤ 65535) ∧
    pictableFromImage indefiniteArch (uniformImage 3 3 white) 2
      = .ret ([[⟨1020, 1020, 1020⟩, ⟨510, 510, 510⟩], [⟨510, 510, 510⟩, ⟨255, 255, 255⟩]], none) ∧
    divisorOf (uniformImage 3 3 white) 2 = 1 ∧
    pixelsIn indefiniteArch (uniformImage 3 3 white) 2 0 0 = 4 := by
  decide

/-- For a decoded image that starts at the origin, a subdivision count `N ≥ 1` that `make`
rejects is above one of the sides, and the call panics. -/
theorem pictableFromImage_beyond_make_limit (arch : Arch) (d : DecodedImage) (size : Int)
    (hminX : d.Bounds.Min.X = 0) (hminY : d.Bounds.Min.Y = 0)
    (hW : 0 ≤ d.Bounds.Max.X) (hH : 0 ≤ d.Bounds.Max.Y)
    (hN : 1 ≤ size) (hmake : makePanics 24 size = true) :
    pictableFromImage arch d.toImage size = .panicked ∧
      (d.Bounds.Max.X < size ∨ d.Bounds.Max.Y < size) := by
  refine ⟨pictableFromImage_makePanics arch d.toImage size hmake, ?_⟩
  obtain ⟨hprod, _, _⟩ := decoded_bounds d hminX hminY hW hH
  unfold makePanics maxAlloc at hmake
  rw [decide_eq_true_iff] at hmake
  have hbig : (2 : Int) ^ 48 < 24 * size := by
    rcases hmake with h | h
    · omega
    · push_cast at h
      exact h
  by_contra hcon
  have hWN : size ≤ d.Bounds.Max.X := by omega
  have hHN : size ≤ d.Bounds.Max.Y := by omega
  have hsq : size * size ≤ d.Bounds.Max.X * d.Bounds.Max.Y :=
    mul_le_mul hWN hHN (by omega) hW
  have h48 : (2 : Int) ^ 48 = 281474976710656 := by norm_num
  rw [h48] at hprod hbig
  nlinarith

end Imgdedup
